import Mathlib

/-!
Verification of the blazy chemistry / PHREEQC-database parsing core.

The Python sources (blazy/chemistry.py, blazy/phreeqc/parser.py,
blazy/phreeqc/io.py) are shallowly embedded below.  Strings are modelled as
`List Char` / `String`, Python dicts as insertion-ordered association lists,
Python exceptions as `Except PyErr`, and the handful of regular expressions
the code uses are translated into explicit, executable scanners whose
behaviour matches CPython's `re` on the relevant patterns.
-/

namespace Blazy

/-! ## Basic character classes (ASCII, as used by the regexes in the source) -/

/-- `[A-Z]` of the source regexes (codepoints 65–90). -/
def isUpperA (c : Char) : Bool := 65 ≤ c.toNat && c.toNat ≤ 90

/-- `[a-z]` of the source regexes (codepoints 97–122). -/
def isLowerA (c : Char) : Bool := 97 ≤ c.toNat && c.toNat ≤ 122

/-- `[0-9]` of the source regexes (codepoints 48–57). -/
def isDigitA (c : Char) : Bool := 48 ≤ c.toNat && c.toNat ≤ 57

/-- The character class `[A-z0-9()]` of the `parens` regex in
`decompose_molecule` (`[A-z]` spans codepoints 65–122, so it also contains
the punctuation between `Z` and `a`). -/
def isParClass (c : Char) : Bool :=
  (65 ≤ c.toNat && c.toNat ≤ 122) || isDigitA c || c = '(' || c = ')'

/-- Python whitespace (ASCII portion), as used by `str.split()`/`str.lstrip()`. -/
def isSpaceA (c : Char) : Bool :=
  c = ' ' || c = '\t' || c = '\n' || c = '\x0d' || c = '\x0c' || c = '\x0b'

/-- Decimal value of a digit string (`int(ns)` on a digit-only string). -/
def digitsToNat (l : List Char) : Nat :=
  l.foldl (fun a c => 10 * a + (c.toNat - 48)) 0

/-! ## The `parens` regex: `\(([A-z0-9()]+)\)([0-9]+)?`

`parens.findall(molecule)` and `parens.sub('', molecule)` are computed by a
single left-to-right scan.  At a `(` the engine greedily consumes the maximal
run of `[A-z0-9()]` characters and backtracks to the *last* `)` inside the
run (the group must be non-empty), then optionally consumes digits. -/

/-- Index of the last `)` in a list, if any. -/
def lastRparen : List Char → Option Nat
  | [] => none
  | c :: t =>
    match lastRparen t with
    | some i => some (i + 1)
    | none => if c = ')' then some 0 else none

/-- Attempt to match `([A-z0-9()]+)\)([0-9]+)?` directly after a `(`.
Returns `(group, digits, rest)` on success. -/
def parensTry (rest : List Char) : Option (List Char × List Char × List Char) :=
  let R := rest.takeWhile isParClass
  match lastRparen R with
  | none => none
  | some k =>
    if 1 ≤ k then
      let content := R.take k
      let after := rest.drop (k + 1)
      let digits := after.takeWhile isDigitA
      some (content, digits, after.drop digits.length)
    else none

/-- Fueled scanner computing `(parens.findall s, parens.sub('', s))`. -/
def parensGo : Nat → List Char → List (List Char × List Char) × List Char
  | 0, s => ([], s)
  | _, [] => ([], [])
  | fuel + 1, c :: rest =>
    if c = '(' then
      match parensTry rest with
      | some (content, digits, rest') =>
        let r := parensGo fuel rest'
        ((content, digits) :: r.1, r.2)
      | none =>
        let r := parensGo fuel rest
        (r.1, c :: r.2)
    else
      let r := parensGo fuel rest
      (r.1, c :: r.2)

/-- `(parens.findall s, parens.sub('', s))` of `decompose_molecule`. -/
def parens_scan (s : List Char) : List (List Char × List Char) × List Char :=
  parensGo (s.length + 1) s

/-! ## The `stoich` regex: `([A-Z][a-z]?)([0-9]+)?` (findall) -/

/-- Fueled scanner for `stoich.findall`. -/
def stoichGo : Nat → List Char → List (String × List Char)
  | 0, _ => []
  | _, [] => []
  | fuel + 1, c :: rest =>
    if isUpperA c then
      match rest with
      | d :: rest' =>
        if isLowerA d then
          let digits := rest'.takeWhile isDigitA
          (String.mk [c, d], digits) :: stoichGo fuel (rest'.drop digits.length)
        else
          let digits := rest.takeWhile isDigitA
          (String.mk [c], digits) :: stoichGo fuel (rest.drop digits.length)
      | [] => [(String.mk [c], [])]
    else stoichGo fuel rest

/-- `stoich.findall s` of `decompose_molecule`. -/
def stoich_findall (s : List Char) : List (String × List Char) :=
  stoichGo (s.length + 1) s

/-! ## The `valence` regex: `.*([+-][0-9]{1})`

`valence.match(rem)` is truthy iff a sign–digit pair occurs in the part of
`rem` before any newline; the greedy `.*` makes `valence.findall(rem)[0]`
the *last* such pair.  The guarded assignment in the source is therefore the
last sign–digit pair of the newline-free prefix, if any. -/

/-- Last `[+-][0-9]` pair of a character list. -/
def lastPair : List Char → Option (List Char)
  | [] => none
  | [_] => none
  | c :: d :: rest =>
    match lastPair (d :: rest) with
    | some p => some p
    | none => if (c = '+' || c = '-') && isDigitA d then some [c, d] else none

/-- The valence string recorded by `decompose_molecule` for remainder `rem`. -/
def valence0 (rem : List Char) : Option String :=
  (lastPair (rem.takeWhile (fun c => c ≠ '\n'))).map String.mk

/-! ## `decompose_molecule` -/

/-- The element → count mapping (insertion-ordered, as a Python dict) plus
the optional `'valence'` entry produced by `decompose_molecule`. -/
structure Comp where
  counts : List (String × Nat)
  valence : Option String
deriving DecidableEq, Repr

/-- Association-list lookup (Python `k in d` / `d[k]`). -/
def plookup {β : Type} : List (String × β) → String → Option β
  | [], _ => none
  | (k, v) :: t, e => if k = e then some v else plookup t e

/-- Update the value at an existing key (`d[k] = f(d[k])`). -/
def alUpdate {β : Type} (f : β → β) (e : String) : List (String × β) → List (String × β)
  | [] => []
  | (k, v) :: t => if k = e then (k, f v) :: t else (k, v) :: alUpdate f e t

/-- `comp[k] = v * n` for every entry (the scaling loop of `decompose_molecule`). -/
def scale (n : Nat) (c : List (String × Nat)) : List (String × Nat) :=
  c.map (fun p => (p.1, p.2 * n))

/-- `int(ns)` with `'' ↦ 1`, as in the `n`-argument handling of
`decompose_molecule` when called recursively on a parenthetical group. -/
def nsToNat (ns : List Char) : Nat :=
  if ns = [] then 1 else digitsToNat ns

/-- One iteration of the `stoich.findall` accumulation loop of
`decompose_molecule`. -/
def stoichStep (n : Nat) (c : List (String × Nat)) (tok : String × List Char) :
    List (String × Nat) :=
  let c' := if (plookup c tok.1).isNone then c ++ [(tok.1, 0)] else c
  alUpdate (fun v => v + (if tok.2 = [] then 1 else digitsToNat tok.2) * n) tok.1 c'

/-- The whole `stoich.findall` accumulation loop. -/
def stoichLoop (n : Nat) (toks : List (String × List Char)) (c : List (String × Nat)) :
    List (String × Nat) :=
  toks.foldl (stoichStep n) c

/-- The `for s, ns in ps: comp = decompose_molecule(s, ns)` loop: the
accumulator is overwritten at each group, so only the last group survives. -/
def parenFold (f : List Char → Nat → Comp) (ps : List (List Char × List Char)) : Comp :=
  match ps with
  | [] => ⟨[], none⟩
  | p :: rest => rest.foldl (fun _ pi => f pi.1 (nsToNat pi.2)) (f p.1 (nsToNat p.2))

/-- Fueled body of `decompose_molecule`; the fuel strictly dominates the
string length at every (reachable) call, so the `0` case is never hit when
invoked through `decompose_molecule`. -/
def decompGo : Nat → List Char → Nat → Comp
  | 0, _, _ => ⟨[], none⟩
  | fuel + 1, m, n =>
    ⟨stoichLoop n (stoich_findall (parens_scan m).2)
       (match (parens_scan m).1 with
        | [] => []
        | ps => scale n (parenFold (decompGo fuel) ps).counts),
     valence0 (parens_scan m).2⟩

/-- `decompose_molecule(molecule, n)` of blazy/chemistry.py. -/
def decompose_molecule (molecule : String) (n : Nat) : Comp :=
  decompGo (molecule.data.length + 1) molecule.data n

/-- `valid_elements` of blazy/chemistry.py. -/
def valid_elements : List String :=
  ["H", "He", "Li", "Be", "B", "C", "N", "O", "F", "Ne", "Na", "Mg",
   "Al", "Si", "P", "S", "Cl", "Ar", "K", "Ca", "Sc", "Ti", "V", "Cr",
   "Mn", "Fe", "Co", "Ni", "Cu", "Zn", "Ga", "Ge", "As", "Se", "Br",
   "Kr", "Rb", "Sr", "Y", "Zr", "Nb", "Mo", "Tc", "Ru", "Rh", "Pd",
   "Ag", "Cd", "In", "Sn", "Sb", "Te", "I", "Xe", "Cs", "Ba", "La",
   "Ce", "Pr", "Nd", "Pm", "Sm", "Eu", "Gd", "Tb", "Dy", "Ho", "Er",
   "Tm", "Yb", "Lu", "Hf", "Ta", "W", "Re", "Os", "Ir", "Pt", "Au",
   "Hg", "Tl", "Pb", "Bi", "Po", "At", "Rn", "Fr", "Ra", "Ac", "Th",
   "Pa", "U", "Np", "Pu", "Am", "Cm", "Bk", "Cf", "Es", "Fm", "Md",
   "No", "Lr", "Rf", "Db", "Sg", "Bh", "Hs", "Mt", "Ds", "Rg", "Cn",
   "Uut", "Uuq", "Uup", "Uuh", "Uuo"]

/-! ## Claim C1: `decompose_molecule("CO2")` and `decompose_molecule("B(OH)4-")` -/

/-- C1 counterexample: the claim asserts `decompose_molecule("B(OH)4-")` has a
`valence` entry equal to `"-1"`.  It does not: the `valence` regex
`.*([+-][0-9]{1})` requires a digit after the sign, and the remainder `B-`
ends in a bare `-`, so no valence is recorded at all. -/
theorem decompose_borate_bare_minus_valence_missing :
    ¬ ((decompose_molecule "B(OH)4-" 1).valence = some "-1") := by decide

/-- C1 amended: `decompose_molecule("CO2") = {C: 1, O: 2}`;
`decompose_molecule("B(OH)4-") = {B: 1, O: 4, H: 4}` with *no* valence entry
(the bare trailing `-` is not matched — only single-digit `±N` suffixes are);
the digit-suffixed input `"B(OH)4-1"` does yield `valence = "-1"`. -/
theorem decompose_CO2_and_borate :
    decompose_molecule "CO2" 1 = ⟨[("C", 1), ("O", 2)], none⟩
    ∧ decompose_molecule "B(OH)4-" 1 = ⟨[("O", 4), ("H", 4), ("B", 1)], none⟩
    ∧ decompose_molecule "B(OH)4-1" 1 = ⟨[("O", 4), ("H", 4), ("B", 1)], some "-1"⟩ := by
  refine ⟨by decide, by decide, by decide⟩

/-! ## Claim C2: single-element formulas -/

/-- C2 counterexample: the claim asserts `decompose_molecule(E) = {E: 1}` for
*every* element of the registry, including three-letter symbols such as
`Uut`.  The `stoich` regex `([A-Z][a-z]?)([0-9]+)?` matches at most one
lowercase letter, so `decompose_molecule("Uut")` returns `{Uu: 1}` instead. -/
theorem decompose_three_letter_symbol_fails :
    "Uut" ∈ valid_elements
    ∧ decompose_molecule "Uut" 1 = ⟨[("Uu", 1)], none⟩
    ∧ ¬ (decompose_molecule "Uut" 1 = ⟨[("Uut", 1)], none⟩) := by
  refine ⟨by decide, by decide, by decide⟩

/-- C2 amended: for every element symbol of the registry consisting of one
uppercase letter followed by at most one lowercase letter (i.e. of length at
most two — all registry symbols except `Uut`, `Uuq`, `Uup`, `Uuh`, `Uuo`),
`decompose_molecule(E)` with the default repeat count returns exactly
`{E: 1}`. -/
theorem decompose_single_element_upto_two_letters :
    ∀ E ∈ valid_elements, E.length ≤ 2 →
      decompose_molecule E 1 = ⟨[(E, 1)], none⟩ := by decide

/-- Witness for `decompose_single_element_upto_two_letters` at `E = "Ca"`. -/
theorem decompose_single_element_upto_two_letters_witness :
    "Ca" ∈ valid_elements ∧ "Ca".length ≤ 2
    ∧ decompose_molecule "Ca" 1 = ⟨[("Ca", 1)], none⟩ :=
  ⟨by decide, by decide,
   decompose_single_element_upto_two_letters "Ca" (by decide) (by decide)⟩

/-! ## Claim C3: only the last parenthetical group survives -/

/-- A `foldl` whose step ignores the accumulator returns the image of the
last list element. -/
theorem foldl_const_append_last {α β : Type} (g : α → β) :
    ∀ (l : List α) (a : α) (init : β),
      (l ++ [a]).foldl (fun _ x => g x) init = g a
  | [], _, _ => rfl
  | b :: t, a, init => by
    rw [List.cons_append, List.foldl_cons]
    exact foldl_const_append_last g t a (g b)

/-- The overwritten accumulator of the parenthetical-group loop equals the
decomposition of the last group alone. -/
theorem parenFold_append_last (f : List Char → Nat → Comp)
    (ps : List (List Char × List Char)) (p : List Char × List Char) :
    parenFold f (ps ++ [p]) = f p.1 (nsToNat p.2) := by
  cases ps with
  | nil => rfl
  | cons q qs =>
    show (qs ++ [p]).foldl (fun _ pi => f pi.1 (nsToNat pi.2)) (f q.1 (nsToNat q.2))
        = f p.1 (nsToNat p.2)
    exact foldl_const_append_last _ qs p _

/-- C3: whenever a formula contains two or more parenthetical groups
(`parens.findall` returns `ps₀ ++ [p]` with `ps₀` non-empty), the accumulated
base kept by `decompose_molecule` is the recursive decomposition of the last
group `p` alone, scaled by `n`; the contributions of all groups in `ps₀` are
discarded before the non-parenthetical remainder is merged in. -/
theorem decompose_keeps_only_last_group (m : String) (n : Nat)
    (ps₀ : List (List Char × List Char)) (p : List Char × List Char)
    (hps : (parens_scan m.data).1 = ps₀ ++ [p]) (hne : ps₀ ≠ []) :
    decompose_molecule m n =
      ⟨stoichLoop n (stoich_findall (parens_scan m.data).2)
         (scale n (decompGo m.data.length p.1 (nsToNat p.2)).counts),
       valence0 (parens_scan m.data).2⟩ := by
  match ps₀, hne with
  | q :: qs, _ =>
    conv_lhs => rw [decompose_molecule, decompGo]
    rw [hps, ← parenFold_append_last (decompGo m.data.length) (q :: qs) p]
    try rfl

/-- Witness for `decompose_keeps_only_last_group` on `"(OH)3-(CO)2"`:
the `(OH)3` group is discarded; the result is `{C: 2, O: 2}`. -/
theorem decompose_keeps_only_last_group_witness :
    (parens_scan "(OH)3-(CO)2".data).1 = [(['O', 'H'], ['3'])] ++ [(['C', 'O'], ['2'])]
    ∧ [(['O', 'H'], ['3'])] ≠ ([] : List (List Char × List Char))
    ∧ decompose_molecule "(OH)3-(CO)2" 1 = ⟨[("C", 2), ("O", 2)], none⟩ :=
  ⟨by decide, by decide,
   (decompose_keeps_only_last_group "(OH)3-(CO)2" 1 [(['O', 'H'], ['3'])]
      (['C', 'O'], ['2']) (by decide) (by decide)).trans (by decide)⟩

/-! ## Claim C4: `decompose_molecule(formula, n)` scales counts by `n` -/

theorem scale_one (c : List (String × Nat)) : scale 1 c = c := by
  induction c with
  | nil => rfl
  | cons h t ih => simp only [scale, List.map_cons, mul_one] at ih ⊢; rw [ih]

theorem plookup_scale (n : Nat) (e : String) :
    ∀ c : List (String × Nat), plookup (scale n c) e = (plookup c e).map (· * n)
  | [] => rfl
  | (k, v) :: t => by
    show plookup ((k, v * n) :: scale n t) e = (plookup ((k, v) :: t) e).map (· * n)
    by_cases h : k = e
    · simp [plookup, h]
    · simp [plookup, h, plookup_scale n e t]

theorem alUpdate_scale (n k : Nat) (e : String) :
    ∀ c : List (String × Nat),
      alUpdate (fun v => v + k * n) e (scale n c) = scale n (alUpdate (fun v => v + k) e c)
  | [] => rfl
  | (a, b) :: t => by
    show alUpdate (fun v => v + k * n) e ((a, b * n) :: scale n t)
        = scale n (alUpdate (fun v => v + k) e ((a, b) :: t))
    by_cases h : a = e
    · simp [alUpdate, h, scale, Nat.add_mul]
    · simp only [alUpdate]
      rw [if_neg h, if_neg h, alUpdate_scale n k e t]
      try rfl

theorem stoichStep_scale (n : Nat) (c : List (String × Nat)) (tok : String × List Char) :
    stoichStep n (scale n c) tok = scale n (stoichStep 1 c tok) := by
  unfold stoichStep
  cases h : plookup c tok.1 with
  | none =>
    have h' : plookup (scale n c) tok.1 = none := by rw [plookup_scale, h]; rfl
    simp only [h', Option.isNone_none, eq_self_iff_true, if_true, mul_one]
    rw [show scale n c ++ [(tok.1, 0)] = scale n (c ++ [(tok.1, 0)]) by simp [scale]]
    exact alUpdate_scale n _ tok.1 (c ++ [(tok.1, 0)])
  | some v =>
    have h' : plookup (scale n c) tok.1 = some (v * n) := by rw [plookup_scale, h]; rfl
    simp only [h', Option.isNone_some, Bool.false_eq_true, if_false, mul_one]
    exact alUpdate_scale n _ tok.1 c

theorem stoichLoop_scale (n : Nat) :
    ∀ (toks : List (String × List Char)) (c : List (String × Nat)),
      stoichLoop n toks (scale n c) = scale n (stoichLoop 1 toks c)
  | [], _ => rfl
  | t :: ts, c => by
    simp only [stoichLoop, List.foldl_cons]
    rw [stoichStep_scale]
    exact stoichLoop_scale n ts (stoichStep 1 c t)

/-- The result of `decompose_molecule` at repeat count `n` is the result at
repeat count `1` with every count scaled by `n` and the valence unchanged. -/
theorem decompGo_scale :
    ∀ (fuel : Nat) (m : List Char) (n : Nat),
      decompGo fuel m n = ⟨scale n (decompGo fuel m 1).counts, (decompGo fuel m 1).valence⟩
  | 0, _, _ => rfl
  | fuel + 1, m, n => by
    simp only [decompGo]
    cases hps : (parens_scan m).1 with
    | nil =>
      simp only [Comp.mk.injEq]
      exact ⟨stoichLoop_scale n _ [], trivial⟩
    | cons q t =>
      simp only [Comp.mk.injEq, scale_one]
      exact ⟨stoichLoop_scale n _ _, trivial⟩

/-- C4: for every formula and positive repeat count `n`, every element count
of `decompose_molecule(formula, n)` is the corresponding count of
`decompose_molecule(formula, 1)` multiplied by `n` (with the same set of
keys), and the valence entry is identical. -/
theorem decompose_molecule_scales (m : String) (n : Nat) (_hn : 0 < n) :
    (∀ e, plookup (decompose_molecule m n).counts e
        = (plookup (decompose_molecule m 1).counts e).map (· * n))
    ∧ (decompose_molecule m n).valence = (decompose_molecule m 1).valence := by
  unfold decompose_molecule
  rw [decompGo_scale (m.data.length + 1) m.data n]
  exact ⟨fun e => plookup_scale n e _, rfl⟩

/-- Witness for `decompose_molecule_scales` at `"B(OH)4-"`, `n = 3`. -/
theorem decompose_molecule_scales_witness :
    0 < 3 ∧ (decompose_molecule "B(OH)4-" 3).valence = (decompose_molecule "B(OH)4-" 1).valence :=
  ⟨by decide, (decompose_molecule_scales "B(OH)4-" 3 (by decide)).2⟩

/-! ## PHREEQC database parser embedding (blazy/phreeqc/parser.py)

Python exceptions are modelled by `Except PyErr`; Python dicts by
insertion-ordered association lists; Python sets by duplicate-free lists
(order = insertion order, queried only through membership). -/

/-- The Python exceptions raised by the embedded code paths. -/
inductive PyErr
  | keyErr
  | indexErr
  | valueErr
  | unboundLocal
deriving DecidableEq, Repr

/-- Monadic map over `Except` (a Python loop that may raise). -/
def exMapM {α β : Type} (f : α → Except PyErr β) : List α → Except PyErr (List β)
  | [] => .ok []
  | a :: t =>
    match f a with
    | .error e => .error e
    | .ok b =>
      match exMapM f t with
      | .error e => .error e
      | .ok bs => .ok (b :: bs)

/-- Monadic fold over `Except` (a Python accumulation loop that may raise). -/
def exFoldlM {σ α : Type} (f : σ → α → Except PyErr σ) : σ → List α → Except PyErr σ
  | s, [] => .ok s
  | s, a :: t =>
    match f s a with
    | .error e => .error e
    | .ok s' => exFoldlM f s' t

/-- Python `set.add`: append if absent (insertion order preserved). -/
def setAdd {α : Type} [DecidableEq α] (l : List α) (x : α) : List α :=
  if x ∈ l then l else l ++ [x]

/-- Python dict assignment `d[k] = v`: overwrite in place, else append. -/
def pyInsert {α β : Type} [DecidableEq α] : List (α × β) → α → β → List (α × β)
  | [], k, v => [(k, v)]
  | (k0, v0) :: t, k, v => if k0 = k then (k, v) :: t else (k0, v0) :: pyInsert t k v

/-- Python dict built from a pair list (later entries overwrite earlier ones). -/
def pyDict {α β : Type} [DecidableEq α] (l : List (α × β)) : List (α × β) :=
  l.foldl (fun acc p => pyInsert acc p.1 p.2) []

/-- `str.split(sep)` for a one-character separator (empties kept, as in Python). -/
def splitOnCharGo (sep : Char) : List Char → List Char → List (List Char)
  | [], acc => [acc.reverse]
  | c :: t, acc =>
    if c = sep then acc.reverse :: splitOnCharGo sep t []
    else splitOnCharGo sep t (c :: acc)

/-- `s.split(sep)`. -/
def splitOnChar (sep : Char) (s : List Char) : List (List Char) :=
  splitOnCharGo sep s []

/-- `s.lstrip()`. -/
def lstripStr (s : String) : String := ⟨s.data.dropWhile isSpaceA⟩

/-- Is `pat` a prefix of `s`? -/
def prefixB : List Char → List Char → Bool
  | [], _ => true
  | _ :: _, [] => false
  | a :: as, b :: bs => a = b && prefixB as bs

/-- Python substring test `pat in s`. -/
def containsSub (pat : List Char) : List Char → Bool
  | [] => pat.isEmpty
  | c :: t => prefixB pat (c :: t) || containsSub pat t

/-- `reacsplit(reac)` of blazy/phreeqc/parser.py: split on `=`, then each
side on single spaces, discarding `+` and empty tokens. -/
def reacsplit (reac : String) : List (List String) :=
  (splitOnChar '=' reac.data).map
    (fun side => ((splitOnChar ' ' side).map String.mk).filter
      (fun c => !(c == "+" || c == "")))

/-- `remove_stoich(species)`: strip the leading `^[0-9]+` run. -/
def remove_stoich (species : String) : String := ⟨species.data.dropWhile isDigitA⟩

/-- `[A-Z][a-z]{0,2}` scanner of `get_elements`. -/
def getElemsGo : Nat → List Char → List String
  | 0, _ => []
  | _, [] => []
  | fuel + 1, c :: rest =>
    if isUpperA c then
      (String.mk (c :: (rest.takeWhile isLowerA).take 2)) ::
        getElemsGo fuel (rest.drop ((rest.takeWhile isLowerA).take 2).length)
    else getElemsGo fuel rest

/-- `get_elements(molecule)` of blazy/chemistry.py (a set, as a dedup list). -/
def get_elements (molecule : String) : List String :=
  (getElemsGo (molecule.data.length + 1) molecule.data).foldl setAdd []

/-- `issubset(target, reference)` of blazy/helpers.py. -/
def issubset (target reference : List String) : Bool :=
  target.all (reference.contains ·)

/-- Truthiness of `a.intersection(b)` for Python sets. -/
def interNonempty (a b : List String) : Bool :=
  a.any (b.contains ·)

/-- State of the entry-grouping loops of `parse_SOLUTION_SPECIES` /
`parse_PHASES`: the current entry name and the dict built so far. -/
structure SSState where
  entry : Option String
  out : List (String × List String)

/-- `parse_SOLUTION_SPECIES` of blazy/phreeqc/parser.py: lines containing
`=` open a new entry (left-stripped), other lines are appended to the
current entry's list (a `KeyError` if no entry is open yet). -/
def parse_SOLUTION_SPECIES (lines : List String) :
    Except PyErr (List (String × List String)) :=
  (exFoldlM (fun st p =>
      if '=' ∈ p.data then
        .ok ⟨some (lstripStr p), pyInsert st.out (lstripStr p) []⟩
      else
        match st.entry with
        | none => .error .keyErr
        | some e =>
          match plookup st.out e with
          | none => .error .keyErr
          | some ls => .ok ⟨st.entry, pyInsert st.out e (ls ++ [lstripStr p])⟩)
    ⟨none, []⟩ lines).map SSState.out

/-- Unpacking `_, prod = reacsplit(s)` (a `ValueError` unless exactly two
sides). -/
def twoSides : List (List String) → Except PyErr (List String × List String)
  | [r, p] => .ok (r, p)
  | _ => .error .valueErr

/-- The per-product-token conditional `set.add` of `get_SOLUTION_SPECIES`
(with a target set). -/
def speciesAdd (ts : List String) (include_foreign : Bool) (a : List String)
    (p : String) : List String :=
  if include_foreign then
    if interNonempty (get_elements p) ts then setAdd a (remove_stoich p) else a
  else
    if issubset (get_elements p) ts && interNonempty (get_elements p) ts then
      setAdd a (remove_stoich p)
    else a

/-- One reaction entry of the `get_SOLUTION_SPECIES` loop (with a target
set): unpack the two sides and scan the product side. -/
def speciesStep (ts : List String) (include_foreign : Bool) (acc : List String)
    (s : String) : Except PyErr (List String) :=
  match twoSides (reacsplit s) with
  | .error e => .error e
  | .ok pr => .ok (pr.2.foldl (speciesAdd ts include_foreign) acc)

/-- `get_SOLUTION_SPECIES(targets, include_foreign)` of
blazy/phreeqc/parser.py: scan the *product* side of every reaction entry,
strip stoichiometric multipliers, filter by element overlap with the
targets, and drop the empty token. -/
def get_SOLUTION_SPECIES (lines : List String) (targets : Option (List String))
    (include_foreign : Bool) : Except PyErr (List String) :=
  match parse_SOLUTION_SPECIES lines with
  | .error e => .error e
  | .ok sdict =>
    let raw :=
      match targets with
      | none =>
        exFoldlM (fun acc s =>
          match twoSides (reacsplit s) with
          | .error e => .error e
          | .ok pr => .ok (pr.2.foldl (fun a p => setAdd a (remove_stoich p)) acc)) []
          (sdict.map Prod.fst)
      | some ts => exFoldlM (speciesStep ts include_foreign) [] (sdict.map Prod.fst)
    match raw with
    | .error e => .error e
    | .ok r => .ok (r.filter (fun x => !(x == "")))

/-- `p.split()[0]` (an `IndexError` on a whitespace-only line). -/
def firstTokenWS (s : List Char) : Except PyErr String :=
  match s.dropWhile isSpaceA with
  | [] => .error .indexErr
  | c :: t => .ok ⟨c :: t.takeWhile (fun x => !(isSpaceA x))⟩

/-- `p.startswith(('\t', ' '))`. -/
def startsTabOrSpace (s : String) : Bool :=
  match s.data with
  | [] => false
  | c :: _ => c = '\t' || c = ' '

/-- `parse_PHASES` of blazy/phreeqc/parser.py: unindented lines open a new
entry named by their first whitespace token; indented lines are appended to
the current entry. -/
def parse_PHASES (lines : List String) : Except PyErr (List (String × List String)) :=
  (exFoldlM (fun (st : SSState) p =>
      if !(startsTabOrSpace p) then
        match firstTokenWS p.data with
        | .error e => .error e
        | .ok e => .ok ⟨some e, pyInsert st.out e []⟩
      else
        match st.entry with
        | none => .error .keyErr
        | some e =>
          match plookup st.out e with
          | none => .error .keyErr
          | some ls => .ok ⟨st.entry, pyInsert st.out e (ls ++ [lstripStr p])⟩)
    ⟨none, []⟩ lines).map SSState.out

/-- `reacsplit(i[0])[0][0]`: the first reactant token of a phase's first
detail line (each missing piece is an `IndexError`). -/
def formulaOf (detail : List String) : Except PyErr String :=
  match detail with
  | [] => .error .indexErr
  | line0 :: _ =>
    match reacsplit line0 with
    | [] => .error .indexErr
    | side0 :: _ =>
      match side0 with
      | [] => .error .indexErr
      | f :: _ => .ok f

/-- The preliminary substring filter of `get_PHASES`: phases whose formula
contains some target as a *substring*. -/
def possiblePhases (phs : List (String × List String)) (ts : List String) :
    Except PyErr (List (String × String)) :=
  exFoldlM (fun acc pi =>
      match ts with
      | [] => .ok acc
      | _ =>
        match formulaOf pi.2 with
        | .error e => .error e
        | .ok f => .ok (ts.foldl (fun a t =>
            if containsSub t.data f.data then setAdd a (pi.1, f) else a) acc))
    [] phs

/-- The result of `get_PHASES`: the raw phase dict when `targets is None`,
otherwise a set of phase names. -/
inductive PhasesResult
  | dict (d : List (String × List String))
  | names (s : List String)
deriving DecidableEq

/-- `get_PHASES(targets, allow_HCO)` of blazy/phreeqc/parser.py.  The local
`ftargets` is only assigned under `allow_HCO`, modelled by an `Option`; the
subset loop reads it and raises `NameError`/`UnboundLocalError` when it was
never assigned. -/
def get_PHASES (lines : List String) (targets : Option (List String))
    (allow_HCO : Bool) : Except PyErr PhasesResult :=
  match parse_PHASES lines with
  | .error e => .error e
  | .ok phases =>
    match targets with
    | none => .ok (.dict phases)
    | some ts =>
      match possiblePhases phases ts with
      | .error e => .error e
      | .ok pp =>
        let ftargets : Option (List String) :=
          if allow_HCO then some (["H", "C", "O"].foldl setAdd ts) else none
        match exFoldlM (fun acc pf =>
            match ftargets with
            | none => .error .unboundLocal
            | some ft => .ok (if issubset (get_elements pf.2) ft then setAdd acc pf.1 else acc))
          [] pp with
        | .error e => .error e
        | .ok out => .ok (.names out)

/-! ## Claim C9: `get_PHASES(..., allow_HCO=False)` raises `NameError` -/

/-- C9: for every parsed database and non-empty set of targets, if at least
one phase formula passes the preliminary substring filter, then
`get_PHASES` with `allow_HCO=False` hits the never-assigned local
`ftargets` and raises (`NameError`/`UnboundLocalError`): the
`allow_HCO=False` query path cannot return normally whenever any phase
survives the substring filter. -/
theorem get_PHASES_allow_HCO_false_raises (lines : List String) (ts : List String)
    (phs : List (String × List String)) (pp : List (String × String))
    (hparse : parse_PHASES lines = .ok phs)
    (hpp : possiblePhases phs ts = .ok pp) (hne : pp ≠ []) :
    get_PHASES lines (some ts) false = .error .unboundLocal := by
  match pp, hne with
  | p0 :: rest, _ =>
    simp only [get_PHASES, hparse, hpp]
    rfl

/-- Witness for `get_PHASES_allow_HCO_false_raises` on a one-phase database
(`Calcite`) with target `Ca`. -/
theorem get_PHASES_allow_HCO_false_raises_witness :
    parse_PHASES ["Calcite", "\tCaCO3 = Ca+2 + CO3-2"]
      = .ok [("Calcite", ["CaCO3 = Ca+2 + CO3-2"])]
    ∧ possiblePhases [("Calcite", ["CaCO3 = Ca+2 + CO3-2"])] ["Ca"]
      = .ok [("Calcite", "CaCO3")]
    ∧ [("Calcite", "CaCO3")] ≠ ([] : List (String × String))
    ∧ get_PHASES ["Calcite", "\tCaCO3 = Ca+2 + CO3-2"] (some ["Ca"]) false
      = .error .unboundLocal :=
  ⟨rfl, rfl, by decide,
   get_PHASES_allow_HCO_false_raises ["Calcite", "\tCaCO3 = Ca+2 + CO3-2"] ["Ca"]
     [("Calcite", ["CaCO3 = Ca+2 + CO3-2"])] [("Calcite", "CaCO3")]
     rfl rfl (by decide)⟩

/-! ## Claim C6: only product-side tokens are returned by `get_SOLUTION_SPECIES` -/

theorem setAdd_mem {α : Type} [DecidableEq α] {l : List α} {x y : α}
    (h : x ∈ setAdd l y) : x ∈ l ∨ x = y := by
  unfold setAdd at h
  by_cases hy : y ∈ l
  · rw [if_pos hy] at h; exact .inl h
  · rw [if_neg hy] at h
    rcases List.mem_append.1 h with h | h
    · exact .inl h
    · exact .inr (List.mem_singleton.1 h)

/-- Adding a product token either keeps the accumulator or records the
stoichiometry-stripped token. -/
theorem speciesAdd_mem {ts : List String} {incf : Bool} {a : List String}
    {p : String} {x : String} (h : x ∈ speciesAdd ts incf a p) :
    x ∈ a ∨ x = remove_stoich p := by
  unfold speciesAdd at h
  cases incf with
  | true =>
    rw [if_pos rfl] at h
    by_cases hc : interNonempty (get_elements p) ts = true
    · rw [if_pos hc] at h; exact setAdd_mem h
    · rw [if_neg hc] at h; exact .inl h
  | false =>
    rw [if_neg (by simp)] at h
    by_cases hc : (issubset (get_elements p) ts && interNonempty (get_elements p) ts) = true
    · rw [if_pos hc] at h; exact setAdd_mem h
    · rw [if_neg hc] at h; exact .inl h

/-- Membership provenance through the product-side scan of one entry. -/
theorem speciesAdd_foldl_mem (ts : List String) (incf : Bool) :
    ∀ (l : List String) (acc : List String) (x : String),
      x ∈ l.foldl (speciesAdd ts incf) acc → x ∈ acc ∨ ∃ p ∈ l, x = remove_stoich p
  | [], _, _, h => .inl h
  | b :: t, acc, x, h => by
    rcases speciesAdd_foldl_mem ts incf t (speciesAdd ts incf acc b) x h with
      h' | ⟨p, hp, hx⟩
    · rcases speciesAdd_mem h' with h'' | h''
      · exact .inl h''
      · exact .inr ⟨b, List.mem_cons_self b t, h''⟩
    · exact .inr ⟨p, List.mem_cons_of_mem b hp, hx⟩

theorem twoSides_eq {l : List (List String)} {v : List String × List String}
    (h : twoSides l = .ok v) : l = [v.1, v.2] := by
  cases l with
  | nil => exact absurd h (by simp [twoSides])
  | cons a t =>
    cases t with
    | nil => exact absurd h (by simp [twoSides])
    | cons b t2 =>
      cases t2 with
      | nil =>
        simp only [twoSides, Except.ok.injEq] at h
        rw [← h]
      | cons c t3 => exact absurd h (by simp [twoSides])

/-- Provenance through the entry loop of `get_SOLUTION_SPECIES` with a
target set. -/
theorem species_loop_mem (ts : List String) (incf : Bool) :
    ∀ (keys : List String) (acc res : List String),
      exFoldlM (speciesStep ts incf) acc keys = .ok res →
      ∀ x ∈ res, x ∈ acc ∨
        ∃ s ∈ keys, ∃ r pr, reacsplit s = [r, pr] ∧ ∃ tok ∈ pr, x = remove_stoich tok
  | [], acc, res, h, x, hx => by
    simp only [exFoldlM, Except.ok.injEq] at h
    exact .inl (h ▸ hx)
  | s :: rest, acc, res, h, x, hx => by
    rw [exFoldlM] at h
    cases hts : twoSides (reacsplit s) with
    | error e =>
      rw [show speciesStep ts incf acc s = .error e by rw [speciesStep, hts]] at h
      exact absurd h (by simp)
    | ok pr =>
      rw [show speciesStep ts incf acc s = .ok (pr.2.foldl (speciesAdd ts incf) acc) by
        rw [speciesStep, hts]] at h
      have hsides := twoSides_eq hts
      rcases species_loop_mem ts incf rest _ res h x hx with h' | ⟨s', hs', hrest⟩
      · rcases speciesAdd_foldl_mem ts incf pr.2 acc x h' with h'' | ⟨tok, htok, hxtok⟩
        · exact .inl h''
        · exact .inr ⟨s, List.mem_cons_self s rest, pr.1, pr.2, hsides, tok, htok, hxtok⟩
      · exact .inr ⟨s', List.mem_cons_of_mem s hs', hrest⟩

/-- C6: on the database whose single `SOLUTION_SPECIES` reaction is
`B(OH)3 + H2O = B(OH)4- + H+`, the boron query returns exactly
`{B(OH)4-}` (so `B(OH)4-` is included and the reactants `B(OH)3` and `H2O`
are not); and in general every string returned by `get_SOLUTION_SPECIES`
with `include_foreign=True` is a stoichiometry-stripped token of the
*product* side of some reaction entry — reactant-only tokens are never
returned. -/
theorem get_SOLUTION_SPECIES_products_only :
    (get_SOLUTION_SPECIES ["B(OH)3 + H2O = B(OH)4- + H+"] (some ["B"]) true
      = .ok ["B(OH)4-"])
    ∧ ∀ (lines ts out : List String),
        get_SOLUTION_SPECIES lines (some ts) true = .ok out →
        ∀ x ∈ out, ∃ d, parse_SOLUTION_SPECIES lines = .ok d ∧
          ∃ s ∈ d.map Prod.fst, ∃ r pr, reacsplit s = [r, pr] ∧
            ∃ tok ∈ pr, x = remove_stoich tok := by
  refine ⟨rfl, ?_⟩
  intro lines ts out hget x hx
  unfold get_SOLUTION_SPECIES at hget
  cases hparse : parse_SOLUTION_SPECIES lines with
  | error e =>
    simp only [hparse] at hget
    exact absurd hget (by simp)
  | ok d =>
    simp only [hparse] at hget
    refine ⟨d, rfl, ?_⟩
    cases hraw : exFoldlM (speciesStep ts true) [] (d.map Prod.fst) with
    | error e =>
      simp only [hraw] at hget
      exact absurd hget (by simp)
    | ok r =>
      simp only [hraw, Except.ok.injEq] at hget
      have hxr : x ∈ r := List.mem_of_mem_filter (hget ▸ hx)
      rcases species_loop_mem ts true (d.map Prod.fst) [] r hraw x hxr with h | h
      · exact absurd h (List.not_mem_nil x)
      · exact h

/-- Witness for `get_SOLUTION_SPECIES_products_only`: the provenance part
applied to the boron reaction at the returned species `B(OH)4-`. -/
theorem get_SOLUTION_SPECIES_products_only_witness :
    get_SOLUTION_SPECIES ["B(OH)3 + H2O = B(OH)4- + H+"] (some ["B"]) true
      = .ok ["B(OH)4-"]
    ∧ ∃ d, parse_SOLUTION_SPECIES ["B(OH)3 + H2O = B(OH)4- + H+"] = .ok d ∧
        ∃ s ∈ d.map Prod.fst, ∃ r pr, reacsplit s = [r, pr] ∧
          ∃ tok ∈ pr, "B(OH)4-" = remove_stoich tok :=
  ⟨rfl, get_SOLUTION_SPECIES_products_only.2
    ["B(OH)3 + H2O = B(OH)4- + H+"] ["B"] ["B(OH)4-"] rfl "B(OH)4-"
    (List.mem_singleton.2 rfl)⟩

/-! ## Master-species translation tables and `check_inputs`
(blazy/phreeqc/parser.py) -/

/-- The `novalence` regex `[+-][0-9]?`: `re.sub` removes every sign
optionally followed by a single digit. -/
def novalenceGo : List Char → List Char
  | [] => []
  | [c] => if c = '+' || c = '-' then [] else [c]
  | c :: d :: rest =>
    if c = '+' || c = '-' then
      if isDigitA d then novalenceGo rest else novalenceGo (d :: rest)
    else c :: novalenceGo (d :: rest)

/-- `novalence.sub('', s)`. -/
def novalence (s : String) : String := ⟨novalenceGo s.data⟩

/-- `str.split()` (split on whitespace runs, no empty tokens). -/
def splitWSGo : Nat → List Char → List (List Char)
  | 0, _ => []
  | _, [] => []
  | fuel + 1, c :: rest =>
    if isSpaceA c then splitWSGo fuel rest
    else (c :: rest.takeWhile (fun x => !(isSpaceA x))) ::
      splitWSGo fuel (rest.drop (rest.takeWhile (fun x => !(isSpaceA x))).length)

/-- `s.split()`. -/
def splitWS (s : List Char) : List (List Char) := splitWSGo (s.length + 1) s

/-- The `SOLUTION_MASTER_SPECIES` table: for each section line `s`,
`sp = s.split(); master_species_table[sp[0]] = sp[1:]` (an `IndexError` on
a whitespace-only line). -/
def master_species_rows (lines : List String) :
    Except PyErr (List (String × List String)) :=
  exFoldlM (fun acc s =>
      match splitWS s.data with
      | [] => .error .indexErr
      | k :: rest => .ok (pyInsert acc ⟨k⟩ (rest.map String.mk)))
    [] lines

/-- The four translation dictionaries built by
`get_SOLUTION_MASTER_SPECIES`. -/
structure DBMaps where
  e2m : List (String × String)
  e2mnc : List (String × String)
  m2e : List (String × String)
  mnc2e : List (String × String)
deriving DecidableEq, Repr

/-- `element_2_master = {k: v[0]}` plus the three derived dicts
(`element_2_master_nocharge`, `master_2_element`,
`master_nocharge_2_element`), each a Python dict comprehension over
`element_2_master.items()`. -/
def buildMaps (tbl : List (String × List String)) : Except PyErr DBMaps :=
  match exMapM (fun p =>
      match p.2 with
      | [] => .error .indexErr
      | m :: _ => .ok (p.1, m)) tbl with
  | .error e => .error e
  | .ok l =>
    .ok ⟨pyDict l,
      pyDict ((pyDict l).map (fun p => (p.1, novalence p.2))),
      pyDict ((pyDict l).map (fun p => (p.2, p.1))),
      pyDict ((pyDict l).map (fun p => (novalence p.2, p.1)))⟩

/-- `_exempt_inputs` as constructed in `datParser.__init__`: the missing
comma makes the adjacent literals `'-water' 'density'` concatenate into the
single string `'-waterdensity'`. -/
def exempt_inputs : List String :=
  ["temperature", "temp", "pressure", "press", "pH", "pe", "redox", "O(0)",
   "-waterdensity", "unit", "units"]

/-- `str.replace(pat, repl)`: left-to-right, non-overlapping (fueled; an
empty pattern, unreachable in the modelled paths, acts as identity). -/
def replaceAllGo (pat repl : List Char) : Nat → List Char → List Char
  | 0, s => s
  | fuel + 1, s =>
    match s with
    | [] => []
    | c :: rest =>
      if prefixB pat (c :: rest) && !pat.isEmpty then
        repl ++ replaceAllGo pat repl fuel ((c :: rest).drop pat.length)
      else c :: replaceAllGo pat repl fuel rest

/-- `s.replace(pat, repl)`. -/
def replaceAll (pat repl s : List Char) : List Char :=
  replaceAllGo pat repl (s.length + 1) s

/-- `if uncertainty_id in k: k = k.replace(uncertainty_id, '')`. -/
def stripStd (uid k : String) : String :=
  if containsSub uid.data k.data then ⟨replaceAll uid.data [] k.data⟩ else k

/-- Outcome of one column of `check_inputs`: retained verbatim, renamed, or
removed. -/
inductive ColRes
  | keep
  | subst (kn : String)
  | remove
deriving DecidableEq, Repr

/-- The per-column branch cascade of `check_inputs` (`k` in the source is
`stripStd uid k0`). -/
def processCol (mp : DBMaps) (remove_failures : Bool) (uid : String)
    (k0 : String) : Except PyErr ColRes :=
  if stripStd uid k0 ∈ exempt_inputs then .ok .keep
  else
    match (stripStd uid k0).data with
    | [] => .error .indexErr
    | c :: _ =>
      if c = '-' then .ok .keep
      else if (plookup mp.e2m (stripStd uid k0)).isSome then .ok .keep
      else
        match plookup mp.m2e (stripStd uid k0) with
        | some e => .ok (.subst ⟨replaceAll (stripStd uid k0).data e.data k0.data⟩)
        | none =>
          match plookup mp.mnc2e (stripStd uid k0) with
          | some e => .ok (.subst ⟨replaceAll (stripStd uid k0).data e.data k0.data⟩)
          | none => if remove_failures then .ok .remove else .error .valueErr

/-- Result of `check_inputs`: the filtered/renamed table plus the
substitution and removal diagnostics collected for the warning message. -/
structure CheckResult (α : Type) where
  table : List (String × α)
  subs : List (String × String)
  rems : List String
deriving DecidableEq, Repr

/-- The retained column (with its final name) contributed by one processed
column, if any. -/
def colOutput {α : Type} (p : (String × α) × ColRes) : Option (String × α) :=
  match p.2 with
  | .keep => some p.1
  | .subst kn => some (kn, p.1.2)
  | .remove => none

/-- Process one column, pairing it with its outcome. -/
def colStep {α : Type} (mp : DBMaps) (remove_failures : Bool) (uid : String)
    (kv : String × α) : Except PyErr ((String × α) × ColRes) :=
  match processCol mp remove_failures uid kv.1 with
  | .error e => .error e
  | .ok r => .ok (kv, r)

/-- `check_inputs(inputs, remove_failures, uncertainty_id)` of
blazy/phreeqc/parser.py.  Columns are processed in order; if anything was
substituted or removed the table is rebuilt from the retained columns with
their final names, otherwise the input table is returned unchanged. -/
def check_inputs {α : Type} (mp : DBMaps) (remove_failures : Bool) (uid : String)
    (inputs : List (String × α)) : Except PyErr (CheckResult α) :=
  match exMapM (colStep mp remove_failures uid) inputs with
  | .error e => .error e
  | .ok rs =>
    .ok ⟨if rs.any (fun p => !(p.2 == ColRes.keep)) then rs.filterMap colOutput else inputs,
      rs.filterMap (fun p => match p.2 with | .subst kn => some (p.1.1, kn) | _ => none),
      rs.filterMap (fun p => match p.2 with | .remove => some p.1.1 | _ => none)⟩

/-- One retained column of the `get_target_elements` loop: skip exempt,
flag and uncertainty columns, translate the rest through
`element_2_master_nocharge` (a `KeyError` when absent) and union in its
elements. -/
def targetStep {α : Type} (mp : DBMaps) (uid : String) (acc : List String)
    (kv : String × α) : Except PyErr (List String) :=
  if kv.1 ∈ exempt_inputs then .ok acc
  else
    match kv.1.data with
    | [] => .error .indexErr
    | c :: _ =>
      if c = '-' then .ok acc
      else if containsSub uid.data kv.1.data then .ok acc
      else
        match plookup mp.e2mnc kv.1 with
        | none => .error .keyErr
        | some ms => .ok ((get_elements ms).foldl setAdd acc)

/-- `get_target_elements(inputs, drop_OH, uncertainty_id)` of
blazy/phreeqc/parser.py: check the inputs, translate every retained
non-exempt, non-flag, non-uncertainty column through
`element_2_master_nocharge`, extract elements, optionally drop `{H, O}`,
and intersect with `valid_elements`. -/
def get_target_elements {α : Type} (mp : DBMaps) (uid : String)
    (inputs : List (String × α)) (drop_OH : Bool) : Except PyErr (List String) :=
  match check_inputs mp true uid inputs with
  | .error e => .error e
  | .ok chk =>
    match exFoldlM (targetStep mp uid) [] chk.table with
    | .error e => .error e
    | .ok targets =>
      .ok ((if drop_OH then targets.filter (fun t => !(t == "H" || t == "O"))
        else targets).filter (fun t => decide (t ∈ valid_elements)))

/-! ### Lemmas about the string and dict primitives -/

theorem prefixB_refl : ∀ l : List Char, prefixB l l = true
  | [] => rfl
  | c :: t => by simp [prefixB, prefixB_refl t]

theorem prefixB_append_self : ∀ (l s : List Char), prefixB l (l ++ s) = true
  | [], _ => rfl
  | c :: t, s => by simp [prefixB, prefixB_append_self t s]

theorem prefixB_mem : ∀ {pat w : List Char}, prefixB pat w = true → ∀ c ∈ pat, c ∈ w
  | [], _, _, c, hc => absurd hc (List.not_mem_nil c)
  | p :: pt, [], h, _, _ => by simp [prefixB] at h
  | p :: pt, b :: bt, h, c, hc => by
    simp only [prefixB, Bool.and_eq_true, decide_eq_true_eq] at h
    rcases List.mem_cons.1 hc with rfl | hc'
    · rw [h.1]; exact List.mem_cons_self _ _
    · exact List.mem_cons_of_mem _ (prefixB_mem h.2 c hc')

theorem containsSub_head_not_mem {p0 : Char} {pt : List Char} :
    ∀ {s : List Char}, p0 ∉ s → containsSub (p0 :: pt) s = false
  | [], _ => rfl
  | c :: t, h => by
    have h1 : ¬ (p0 = c) := fun e => h (e ▸ List.mem_cons_self c t)
    have h2 : p0 ∉ t := fun m => h (List.mem_cons_of_mem c m)
    simp [containsSub, prefixB, h1, containsSub_head_not_mem h2]

theorem containsSub_append_right (pat : List Char) (hpat : pat ≠ []) :
    ∀ l : List Char, containsSub pat (l ++ pat) = true
  | [] => by
    match pat, hpat with
    | p :: pt, _ => simp [containsSub, prefixB_refl]
  | c :: t => by simp [containsSub, containsSub_append_right pat hpat t]

theorem replaceAllGo_nil (pat repl : List Char) : ∀ fuel, replaceAllGo pat repl fuel [] = []
  | 0 => rfl
  | _ + 1 => rfl

theorem replaceAllGo_head_not_mem {p0 : Char} {pt repl : List Char} :
    ∀ (fuel : Nat) (s : List Char), p0 ∉ s → replaceAllGo (p0 :: pt) repl fuel s = s
  | 0, s, _ => rfl
  | _ + 1, [], _ => rfl
  | fuel + 1, c :: t, h => by
    have h1 : ¬ (p0 = c) := fun e => h (e ▸ List.mem_cons_self c t)
    have h2 : p0 ∉ t := fun m => h (List.mem_cons_of_mem c m)
    simp [replaceAllGo, prefixB, h1, replaceAllGo_head_not_mem fuel t h2]

theorem replaceAllGo_no_upper {pat repl : List Char} (c0 : Char) (hc0 : c0 ∈ pat)
    (hup : isUpperA c0 = true) :
    ∀ (fuel : Nat) (s : List Char), (∀ c ∈ s, isUpperA c = false) →
      replaceAllGo pat repl fuel s = s
  | 0, s, _ => rfl
  | _ + 1, [], _ => rfl
  | fuel + 1, c :: t, h => by
    have hpre : prefixB pat (c :: t) = false := by
      cases hp : prefixB pat (c :: t) with
      | false => rfl
      | true =>
        have hmem := prefixB_mem hp c0 hc0
        have hfalse := h c0 hmem
        rw [hup] at hfalse
        exact absurd hfalse (by simp)
    simp [replaceAllGo, hpre,
      replaceAllGo_no_upper c0 hc0 hup fuel t (fun c hc => h c (List.mem_cons_of_mem _ hc))]

theorem replaceAllGo_self (pat repl : List Char) (hpat : pat ≠ []) (fuel : Nat) :
    replaceAllGo pat repl (fuel + 1) pat = repl := by
  match pat, hpat with
  | p :: pt, _ =>
    have h1 : (prefixB (p :: pt) (p :: pt) && !(p :: pt).isEmpty) = true := by
      simp [prefixB_refl]
    simp only [replaceAllGo, h1, if_true, List.drop_length, replaceAllGo_nil, List.append_nil]

theorem replaceAllGo_append (pat repl : List Char) (hpat : pat ≠ []) (fuel : Nat)
    (s : List Char) :
    replaceAllGo pat repl (fuel + 1) (pat ++ s) = repl ++ replaceAllGo pat repl fuel s := by
  match pat, hpat with
  | p :: pt, _ =>
    have h1 : (prefixB (p :: pt) (p :: (pt ++ s)) && !(p :: pt).isEmpty) = true := by
      simp [prefixB, prefixB_append_self]
    have h2 : (p :: (pt ++ s)).drop (p :: pt).length = s := by
      rw [← List.cons_append]
      exact List.drop_left _ _
    rw [List.cons_append]
    simp only [replaceAllGo, h1, if_true, h2]

theorem replaceAllGo_clean_prefix (p0 : Char) (pt repl : List Char) :
    ∀ (s : List Char) (t : List Char) (fuel : Nat), p0 ∉ s → s.length + 1 ≤ fuel →
      replaceAllGo (p0 :: pt) repl fuel (s ++ t)
        = s ++ replaceAllGo (p0 :: pt) repl (fuel - s.length) t
  | [], t, fuel, _, _ => by simp
  | c :: s', t, fuel, h, hf => by
    match fuel, hf with
    | f + 1, hf =>
      have h1 : ¬ (p0 = c) := fun e => h (e ▸ List.mem_cons_self c s')
      have h2 : p0 ∉ s' := fun m => h (List.mem_cons_of_mem c m)
      have hf' : s'.length + 1 ≤ f := by
        simpa [Nat.succ_le_succ_iff] using hf
      have hcond : (prefixB (p0 :: pt) (c :: (s' ++ t)) && !(p0 :: pt).isEmpty) = false := by
        simp [prefixB, h1]
      simp only [List.cons_append, replaceAllGo, hcond, Bool.false_eq_true, if_false,
        replaceAllGo_clean_prefix p0 pt repl s' t f h2 hf', List.length_cons,
        Nat.succ_sub_succ, List.append_eq]

theorem plookup_mem {β : Type} :
    ∀ {l : List (String × β)} {k : String} {v : β}, plookup l k = some v → (k, v) ∈ l
  | [], _, _, h => by simp [plookup] at h
  | (k0, v0) :: t, k, v, h => by
    by_cases he : k0 = k
    · subst he
      rw [plookup, if_pos rfl] at h
      injection h with h'
      subst h'
      exact List.mem_cons_self _ _
    · rw [plookup, if_neg he] at h
      exact List.mem_cons_of_mem _ (plookup_mem h)

theorem plookup_isSome_of_mem {β : Type} :
    ∀ {l : List (String × β)} {k : String} {v : β}, (k, v) ∈ l →
      (plookup l k).isSome = true
  | [], _, _, h => absurd h (List.not_mem_nil _)
  | (k0, v0) :: t, k, v, h => by
    by_cases he : k0 = k
    · rw [plookup, if_pos he]; rfl
    · rw [plookup, if_neg he]
      rcases List.mem_cons.1 h with h1 | h1
      · exact absurd (congrArg Prod.fst h1).symm he
      · exact plookup_isSome_of_mem h1

theorem pyInsert_mem {α β : Type} [DecidableEq α] :
    ∀ {l : List (α × β)} {k : α} {v : β} {p : α × β},
      p ∈ pyInsert l k v → p ∈ l ∨ p = (k, v)
  | [], k, v, p, h => by
    simp only [pyInsert] at h
    exact .inr (List.mem_singleton.1 h)
  | (k0, v0) :: t, k, v, p, h => by
    by_cases he : k0 = k
    · rw [pyInsert, if_pos he] at h
      rcases List.mem_cons.1 h with h1 | h1
      · exact .inr h1
      · exact .inl (List.mem_cons_of_mem _ h1)
    · rw [pyInsert, if_neg he] at h
      rcases List.mem_cons.1 h with h1 | h1
      · exact .inl (h1 ▸ List.mem_cons_self _ _)
      · rcases pyInsert_mem h1 with h2 | h2
        · exact .inl (List.mem_cons_of_mem _ h2)
        · exact .inr h2

theorem pyDict_foldl_mem {α β : Type} [DecidableEq α] {p : α × β} :
    ∀ (l acc : List (α × β)),
      p ∈ l.foldl (fun acc q => pyInsert acc q.1 q.2) acc → p ∈ acc ∨ p ∈ l
  | [], _, h => .inl h
  | q :: t, acc, h => by
    rcases pyDict_foldl_mem t (pyInsert acc q.1 q.2) h with h1 | h1
    · rcases pyInsert_mem h1 with h2 | h2
      · exact .inl h2
      · exact .inr (by rw [h2]; exact List.mem_cons_self _ _)
    · exact .inr (List.mem_cons_of_mem _ h1)

theorem pyDict_mem {α β : Type} [DecidableEq α] {p : α × β} {l : List (α × β)}
    (h : p ∈ pyDict l) : p ∈ l := by
  rcases pyDict_foldl_mem l [] h with h1 | h1
  · exact absurd h1 (List.not_mem_nil p)
  · exact h1

theorem plookup_pyInsert_isSome {β : Type} (k : String) (v : β) (a : String) :
    ∀ l : List (String × β),
      (plookup (pyInsert l k v) a).isSome = (decide (a = k) || (plookup l a).isSome)
  | [] => by
    by_cases he : k = a
    · subst he
      simp [pyInsert, plookup]
    · have he' : ¬ (a = k) := fun e => he e.symm
      simp [pyInsert, plookup, he, he']
  | (k0, v0) :: t => by
    by_cases hk : k0 = k
    · subst hk
      by_cases ha : k0 = a
      · subst ha
        simp [pyInsert, plookup]
      · have ha' : ¬ (a = k0) := fun e => ha e.symm
        simp [pyInsert, plookup, ha, ha']
    · rw [pyInsert, if_neg hk]
      by_cases ha : k0 = a
      · subst ha
        simp [plookup]
      · rw [plookup, if_neg ha, plookup, if_neg ha]
        exact plookup_pyInsert_isSome k v a t

theorem plookup_pyDict_isSome_of_key {β : Type} {a : String} :
    ∀ (l acc : List (String × β)),
      (a ∈ l.map Prod.fst ∨ (plookup acc a).isSome = true) →
      (plookup (l.foldl (fun acc q => pyInsert acc q.1 q.2) acc) a).isSome = true
  | [], acc, h => by
    rcases h with h | h
    · simp at h
    · exact h
  | q :: t, acc, h => by
    apply plookup_pyDict_isSome_of_key t (pyInsert acc q.1 q.2)
    rcases h with h | h
    · rw [List.map_cons] at h
      rcases List.mem_cons.1 h with h1 | h1
      · right
        rw [plookup_pyInsert_isSome]
        simp [h1]
      · left
        exact h1
    · right
      rw [plookup_pyInsert_isSome, h]
      simp

theorem plookup_pyDict_isSome {β : Type} {a : String} {l : List (String × β)}
    (h : a ∈ l.map Prod.fst) : (plookup (pyDict l) a).isSome = true :=
  plookup_pyDict_isSome_of_key l [] (.inl h)

theorem exMapM_mem {α β : Type} {f : α → Except PyErr β} :
    ∀ {xs : List α} {ys : List β}, exMapM f xs = .ok ys → ∀ y ∈ ys, ∃ x ∈ xs, f x = .ok y
  | [], ys, h, y, hy => by
    simp only [exMapM, Except.ok.injEq] at h
    rw [← h] at hy
    exact absurd hy (List.not_mem_nil y)
  | a :: t, ys, h, y, hy => by
    rw [exMapM] at h
    cases hfa : f a with
    | error e => rw [hfa] at h; exact absurd h (by simp)
    | ok b =>
      rw [hfa] at h
      cases hrec : exMapM f t with
      | error e => rw [hrec] at h; exact absurd h (by simp)
      | ok bs =>
        rw [hrec] at h
        simp only [Except.ok.injEq] at h
        rw [← h] at hy
        rcases List.mem_cons.1 hy with rfl | hy'
        · exact ⟨a, List.mem_cons_self a t, hfa⟩
        · rcases exMapM_mem hrec y hy' with ⟨x, hx, hfx⟩
          exact ⟨x, List.mem_cons_of_mem a hx, hfx⟩

theorem exMapM_forward {α β : Type} {f : α → Except PyErr β} :
    ∀ {xs : List α} {ys : List β}, exMapM f xs = .ok ys → ∀ x ∈ xs, ∃ y ∈ ys, f x = .ok y
  | [], _, _, x, hx => absurd hx (List.not_mem_nil x)
  | a :: t, ys, h, x, hx => by
    rw [exMapM] at h
    cases hfa : f a with
    | error e => rw [hfa] at h; exact absurd h (by simp)
    | ok b =>
      rw [hfa] at h
      cases hrec : exMapM f t with
      | error e => rw [hrec] at h; exact absurd h (by simp)
      | ok bs =>
        rw [hrec] at h
        simp only [Except.ok.injEq] at h
        rcases List.mem_cons.1 hx with rfl | hx'
        · exact ⟨b, (by rw [← h]; exact List.mem_cons_self _ _), hfa⟩
        · rcases exMapM_forward hrec x hx' with ⟨y, hy, hfy⟩
          exact ⟨y, (by rw [← h]; exact List.mem_cons_of_mem _ hy), hfy⟩

theorem exMapM_map {α β : Type} {f : α → Except PyErr β} {g : α → β} :
    ∀ {xs : List α}, (∀ x ∈ xs, f x = .ok (g x)) → exMapM f xs = .ok (xs.map g)
  | [], _ => rfl
  | a :: t, h => by
    rw [exMapM, h a (List.mem_cons_self a t),
      exMapM_map (fun x hx => h x (List.mem_cons_of_mem a hx))]
    rfl

/-! ### Lemmas about `novalence` and `stripStd` -/

theorem isDigitA_not_upper {c : Char} (h : isDigitA c = true) : isUpperA c = false := by
  simp only [isDigitA, Bool.and_eq_true, decide_eq_true_eq] at h
  simp only [isUpperA]
  cases h65 : decide (65 ≤ c.toNat) with
  | false => rfl
  | true =>
    simp only [decide_eq_true_eq] at h65
    omega

theorem novalenceGo_mem : ∀ {s : List Char} {c : Char}, c ∈ novalenceGo s → c ∈ s
  | [], c, h => absurd h (List.not_mem_nil c)
  | [c0], c, h => by
    simp only [novalenceGo] at h
    split at h
    · exact absurd h (List.not_mem_nil c)
    · exact h
  | c0 :: d :: rest, c, h => by
    simp only [novalenceGo] at h
    split at h
    · split at h
      · exact List.mem_cons_of_mem _ (List.mem_cons_of_mem _ (novalenceGo_mem h))
      · exact List.mem_cons_of_mem _ (novalenceGo_mem h)
    · rcases List.mem_cons.1 h with rfl | h1
      · exact List.mem_cons_self _ _
      · exact List.mem_cons_of_mem _ (novalenceGo_mem h1)

theorem novalenceGo_upper_mem : ∀ {s : List Char} {c : Char}, c ∈ s → isUpperA c = true →
    c ∈ novalenceGo s
  | [], c, h, _ => absurd h (List.not_mem_nil c)
  | [c0], c, h, hu => by
    rcases List.mem_singleton.1 h with rfl
    simp only [novalenceGo]
    split
    · next h0 =>
      simp only [Bool.or_eq_true, decide_eq_true_eq] at h0
      rcases h0 with rfl | rfl <;> exact absurd hu (by decide)
    · exact List.mem_singleton.2 rfl
  | c0 :: d :: rest, c, h, hu => by
    simp only [novalenceGo]
    rcases List.mem_cons.1 h with rfl | h1
    · split
      · next h0 =>
        simp only [Bool.or_eq_true, decide_eq_true_eq] at h0
        rcases h0 with rfl | rfl <;> exact absurd hu (by decide)
      · exact List.mem_cons_self _ _
    · split
      · next h0 =>
        split
        · next hd =>
          rcases List.mem_cons.1 h1 with rfl | h2
          · have hfalse := isDigitA_not_upper hd
            rw [hu] at hfalse
            exact absurd hfalse (by simp)
          · exact novalenceGo_upper_mem h2 hu
        · exact novalenceGo_upper_mem h1 hu
      · exact List.mem_cons_of_mem _ (novalenceGo_upper_mem h1 hu)

theorem stripStd_clean {k : String} (hu : '_' ∉ k.data) : stripStd "_std" k = k := by
  have hc : containsSub ("_std" : String).data k.data = false :=
    @containsSub_head_not_mem '_' ['s', 't', 'd'] k.data hu
  simp [stripStd, hc]

theorem stripStd_suffix {k : String} (hu : '_' ∉ k.data) :
    stripStd "_std" ⟨k.data ++ ("_std" : String).data⟩ = k := by
  have hd : ("_std" : String).data = ['_', 's', 't', 'd'] := rfl
  have hc : containsSub ("_std" : String).data (k.data ++ ("_std" : String).data) = true :=
    containsSub_append_right _ (by rw [hd]; simp) k.data
  have hrep : replaceAll ("_std" : String).data [] (k.data ++ ("_std" : String).data)
      = k.data := by
    unfold replaceAll
    rw [hd]
    have hlen : (k.data ++ ['_', 's', 't', 'd']).length + 1 = k.data.length + 5 := by
      simp [List.length_append]
    rw [hlen, replaceAllGo_clean_prefix '_' ['s', 't', 'd'] [] k.data ['_', 's', 't', 'd']
      (k.data.length + 5) hu (by omega)]
    have h5 : k.data.length + 5 - k.data.length = 5 := by omega
    rw [h5, show replaceAllGo ['_', 's', 't', 'd'] [] 5 ['_', 's', 't', 'd'] = [] from rfl,
      List.append_nil]
  simp only [stripStd, hc, if_true, hrep]

theorem replaceAll_string_self {k : String} (repl : List Char) (hk : k.data ≠ []) :
    replaceAll k.data repl k.data = repl :=
  replaceAllGo_self k.data repl hk k.data.length

theorem replaceAll_string_suffix {k : String} (repl : List Char) (hk : k.data ≠ [])
    (hup : ∃ c ∈ k.data, isUpperA c = true) :
    replaceAll k.data repl (k.data ++ ("_std" : String).data)
      = repl ++ ("_std" : String).data := by
  unfold replaceAll
  have hlen : (k.data ++ ("_std" : String).data).length + 1 = (k.data.length + 4) + 1 := by
    simp [List.length_append, show ("_std" : String).data.length = 4 from rfl]
  rw [hlen, replaceAllGo_append k.data repl hk (k.data.length + 4) ("_std" : String).data]
  obtain ⟨c0, hc0, hcu⟩ := hup
  rw [replaceAllGo_no_upper c0 hc0 hcu _ _ (by decide)]

/-! ### Second-pass stability of `check_inputs` columns -/

theorem data_ne_nil {s : String} (h : s ≠ "") : s.data ≠ [] :=
  fun hd => h (String.ext (hd.trans rfl))

/-- Well-formedness of a parsed `SOLUTION_MASTER_SPECIES` table: element
names are non-empty and underscore-free; every row has a master species
that is underscore-free and contains an uppercase letter.  Real PHREEQC
names (`Ca`, `S(6)`, `B(OH)3`, `Ca+2`, …) satisfy this. -/
def WellFormedTbl (tbl : List (String × List String)) : Prop :=
  ∀ p ∈ tbl, p.1 ≠ "" ∧ '_' ∉ p.1.data ∧ p.2 ≠ [] ∧
    '_' ∉ (p.2.headI).data ∧ (p.2.headI).data.any isUpperA = true

/-- Well-formedness of composition-table column names: each column is a
base name (non-empty, no underscore) optionally carrying the `_std`
uncertainty suffix. -/
def WellFormedCols {α : Type} (inputs : List (String × α)) : Prop :=
  ∀ kv ∈ inputs, ∃ k : String,
    (kv.1 = k ∨ kv.1.data = k.data ++ ("_std" : String).data) ∧ k ≠ "" ∧ '_' ∉ k.data

theorem buildMaps_spec {tbl : List (String × List String)} {mp : DBMaps}
    (hbm : buildMaps tbl = .ok mp) :
    ∃ l, exMapM (fun p =>
        match p.2 with
        | [] => Except.error PyErr.indexErr
        | m :: _ => Except.ok (p.1, m)) tbl = .ok l ∧
      mp = ⟨pyDict l, pyDict ((pyDict l).map (fun p => (p.1, novalence p.2))),
            pyDict ((pyDict l).map (fun p => (p.2, p.1))),
            pyDict ((pyDict l).map (fun p => (novalence p.2, p.1)))⟩ := by
  unfold buildMaps at hbm
  cases hml : exMapM (fun p =>
      match p.2 with
      | [] => Except.error PyErr.indexErr
      | m :: _ => Except.ok (p.1, m)) tbl with
  | error e => rw [hml] at hbm; exact absurd hbm (by simp)
  | ok l =>
    rw [hml] at hbm
    injection hbm with h
    exact ⟨l, rfl, h.symm⟩

theorem e2mList_mem {tbl : List (String × List String)}
    {l : List (String × String)}
    (hml : exMapM (fun p =>
        match p.2 with
        | [] => Except.error PyErr.indexErr
        | m :: _ => Except.ok (p.1, m)) tbl = .ok l)
    {e m : String} (h : (e, m) ∈ l) :
    ∃ aux, (e, aux) ∈ tbl ∧ aux.headI = m := by
  rcases exMapM_mem hml (e, m) h with ⟨⟨x1, x2⟩, hx, hfx⟩
  cases hx2 : x2 with
  | nil =>
    rw [hx2] at hfx
    exact absurd hfx (by simp)
  | cons m0 rest =>
    rw [hx2] at hfx
    simp only [Except.ok.injEq, Prod.mk.injEq] at hfx
    obtain ⟨rfl, rfl⟩ := hfx
    rw [hx2] at hx
    exact ⟨m0 :: rest, hx, rfl⟩

theorem subst_target_props {tbl : List (String × List String)} {mp : DBMaps}
    (hbm : buildMaps tbl = .ok mp) (htbl : WellFormedTbl tbl) {k e : String}
    (hs : plookup mp.m2e k = some e ∨ plookup mp.mnc2e k = some e) :
    e ≠ "" ∧ '_' ∉ e.data ∧ (plookup mp.e2m e).isSome = true
      ∧ (∃ c ∈ k.data, isUpperA c = true) := by
  obtain ⟨l, hml, rfl⟩ := buildMaps_spec hbm
  rcases hs with hs | hs
  · rcases List.mem_map.1 (pyDict_mem (plookup_mem hs)) with ⟨⟨p1, p2⟩, hp, hpe⟩
    simp only [Prod.mk.injEq] at hpe
    obtain ⟨rfl, rfl⟩ := hpe
    rcases e2mList_mem hml (pyDict_mem hp) with ⟨aux, haux, hhead⟩
    have hw := htbl (p1, aux) haux
    refine ⟨hw.1, hw.2.1, plookup_isSome_of_mem hp, ?_⟩
    rcases List.any_eq_true.1 hw.2.2.2.2 with ⟨c, hc, hcu⟩
    exact ⟨c, hhead ▸ hc, hcu⟩
  · rcases List.mem_map.1 (pyDict_mem (plookup_mem hs)) with ⟨⟨p1, p2⟩, hp, hpe⟩
    simp only [Prod.mk.injEq] at hpe
    obtain ⟨hk, rfl⟩ := hpe
    rcases e2mList_mem hml (pyDict_mem hp) with ⟨aux, haux, hhead⟩
    have hw := htbl (p1, aux) haux
    refine ⟨hw.1, hw.2.1, plookup_isSome_of_mem hp, ?_⟩
    rcases List.any_eq_true.1 hw.2.2.2.2 with ⟨c, hc, hcu⟩
    refine ⟨c, ?_, hcu⟩
    rw [← hk]
    exact novalenceGo_upper_mem (hhead ▸ hc) hcu

theorem processCol_keep {mp : DBMaps} {k0 e : String}
    (hstrip : stripStd "_std" k0 = e) (he : e ≠ "")
    (hsome : (plookup mp.e2m e).isSome = true) :
    processCol mp true "_std" k0 = .ok .keep := by
  unfold processCol
  rw [hstrip]
  by_cases hex : e ∈ exempt_inputs
  · rw [if_pos hex]
  · rw [if_neg hex]
    split
    · next heq => exact absurd (String.ext (heq.trans rfl)) he
    · next c rest heq =>
      by_cases hdash : c = '-'
      · rw [if_pos hdash]
      · rw [if_neg hdash, hsome, if_pos rfl]

theorem processCol_subst_stable {tbl : List (String × List String)} {mp : DBMaps}
    (hbm : buildMaps tbl = .ok mp) (htbl : WellFormedTbl tbl) {k0 kn : String}
    (hcol : ∃ k : String, (k0 = k ∨ k0.data = k.data ++ ("_std" : String).data)
      ∧ k ≠ "" ∧ '_' ∉ k.data)
    (hrun : processCol mp true "_std" k0 = .ok (.subst kn)) :
    processCol mp true "_std" kn = .ok .keep := by
  obtain ⟨k, hshape, hk, hku⟩ := hcol
  have hstrip : stripStd "_std" k0 = k := by
    rcases hshape with rfl | hsfx
    · exact stripStd_clean hku
    · rw [@String.ext k0 ⟨k.data ++ ("_std" : String).data⟩ hsfx]
      exact stripStd_suffix hku
  unfold processCol at hrun
  rw [hstrip] at hrun
  have hmain : ∀ e : String,
      (plookup mp.m2e k = some e ∨ plookup mp.mnc2e k = some e) →
      kn = ⟨replaceAll k.data e.data k0.data⟩ →
      processCol mp true "_std" kn = .ok .keep := by
    intro e hlook hkn
    obtain ⟨hene, heu, hesome, hkup⟩ := subst_target_props hbm htbl hlook
    rcases hshape with rfl | hsfx
    · have : kn = e := by
        rw [hkn, replaceAll_string_self e.data (data_ne_nil hk)]
      rw [this]
      exact processCol_keep (stripStd_clean heu) hene hesome
    · have : kn = ⟨e.data ++ ("_std" : String).data⟩ := by
        rw [hkn, hsfx, replaceAll_string_suffix e.data (data_ne_nil hk) hkup]
      rw [this]
      exact processCol_keep (stripStd_suffix heu) hene hesome
  split at hrun
  · simp at hrun
  · split at hrun
    · simp at hrun
    · next c rest heq =>
      split at hrun
      · simp at hrun
      · split at hrun
        · simp at hrun
        · split at hrun
          · next e heq2 =>
            simp only [Except.ok.injEq, ColRes.subst.injEq] at hrun
            exact hmain e (.inl heq2) hrun.symm
          · next heq2 =>
            split at hrun
            · next e heq3 =>
              simp only [Except.ok.injEq, ColRes.subst.injEq] at hrun
              exact hmain e (.inr heq3) hrun.symm
            · split at hrun <;> simp at hrun

/-! ### Claim C5: `check_inputs` is idempotent -/

theorem colStep_ok {α : Type} {mp : DBMaps} {rf : Bool} {uid : String}
    {kv : String × α} {q : (String × α) × ColRes}
    (h : colStep mp rf uid kv = .ok q) :
    q.1 = kv ∧ processCol mp rf uid kv.1 = .ok q.2 := by
  unfold colStep at h
  cases hp : processCol mp rf uid kv.1 with
  | error e => rw [hp] at h; exact absurd h (by simp)
  | ok r =>
    rw [hp] at h
    injection h with h'
    subst h'
    exact ⟨rfl, rfl⟩

theorem check_inputs_spec {α : Type} {mp : DBMaps} {rf : Bool} {uid : String}
    {inputs : List (String × α)} {res : CheckResult α}
    (h : check_inputs mp rf uid inputs = .ok res) :
    ∃ rs, exMapM (colStep mp rf uid) inputs = .ok rs ∧
      res = ⟨if rs.any (fun p => !(p.2 == ColRes.keep)) then rs.filterMap colOutput
          else inputs,
        rs.filterMap (fun p => match p.2 with | .subst kn => some (p.1.1, kn) | _ => none),
        rs.filterMap (fun p => match p.2 with | .remove => some p.1.1 | _ => none)⟩ := by
  unfold check_inputs at h
  cases hmapm : exMapM (colStep mp rf uid) inputs with
  | error e => rw [hmapm] at h; exact absurd h (by simp)
  | ok rs =>
    rw [hmapm] at h
    injection h with h'
    exact ⟨rs, rfl, h'.symm⟩

theorem filterMap_const_none {α β : Type} :
    ∀ l : List α, l.filterMap (fun _ => (none : Option β)) = []
  | [] => rfl
  | a :: t => by simp [List.filterMap_cons, filterMap_const_none t]

theorem map_keep_any_false {β : Type} :
    ∀ l : List β,
      ((l.map (fun kv => (kv, ColRes.keep))).any (fun p => !(p.2 == ColRes.keep))) = false
  | [] => rfl
  | a :: t => by simp [map_keep_any_false t]

theorem check_inputs_all_keep {α : Type} {mp : DBMaps} {uid : String}
    {tbl2 : List (String × α)}
    (h : ∀ kv ∈ tbl2, processCol mp true uid kv.1 = .ok .keep) :
    check_inputs mp true uid tbl2 = .ok ⟨tbl2, [], []⟩ := by
  have hmap : exMapM (colStep mp true uid) tbl2
      = .ok (tbl2.map (fun kv => (kv, ColRes.keep))) :=
    exMapM_map (fun kv hkv => by unfold colStep; rw [h kv hkv])
  unfold check_inputs
  rw [hmap]
  have hany : (tbl2.map (fun kv => (kv, ColRes.keep))).any
      (fun p => !(p.2 == ColRes.keep)) = false := map_keep_any_false tbl2
  have hsubs : (tbl2.map (fun kv => (kv, ColRes.keep))).filterMap
      (fun p => match p.2 with | ColRes.subst kn => some (p.1.1, kn) | _ => none)
      = ([] : List (String × String)) := by
    rw [List.filterMap_map]
    exact filterMap_const_none tbl2
  have hrems : (tbl2.map (fun kv => (kv, ColRes.keep))).filterMap
      (fun p => match p.2 with | ColRes.remove => some p.1.1 | _ => none)
      = ([] : List String) := by
    rw [List.filterMap_map]
    exact filterMap_const_none tbl2
  simp only [hany, hsubs, hrems, Bool.false_eq_true, if_false]

/-- C5: `check_inputs` is idempotent.  For any well-formed master-species
table and composition table on which `check_inputs` succeeds with default
settings, running it again on its own output returns exactly the same
table (same columns, order and values) with no substitution and no removal
diagnostics — no key of the first output is translatable, removable or
renamable on the second pass. -/
theorem check_inputs_idempotent {α : Type} {tbl : List (String × List String)}
    {mp : DBMaps} {inputs : List (String × α)} {res : CheckResult α}
    (hbm : buildMaps tbl = .ok mp) (htbl : WellFormedTbl tbl)
    (hcols : WellFormedCols inputs)
    (hrun : check_inputs mp true "_std" inputs = .ok res) :
    check_inputs mp true "_std" res.table = .ok ⟨res.table, [], []⟩ := by
  obtain ⟨rs, hmap, hres⟩ := check_inputs_spec hrun
  apply check_inputs_all_keep
  intro kv hkv
  have htab : res.table
      = (if rs.any (fun p => !(p.2 == ColRes.keep)) then rs.filterMap colOutput
        else inputs) := by rw [hres]
  rw [htab] at hkv
  by_cases hany : rs.any (fun p => !(p.2 == ColRes.keep)) = true
  · rw [if_pos hany] at hkv
    rcases List.mem_filterMap.1 hkv with ⟨q, hq, hcq⟩
    rcases exMapM_mem hmap q hq with ⟨kv0, hkv0, hstep⟩
    obtain ⟨hq1, hproc⟩ := colStep_ok hstep
    cases hr : q.2 with
    | keep =>
      unfold colOutput at hcq
      rw [hr] at hcq hproc
      injection hcq with hcq'
      rw [← hcq', hq1]
      exact hproc
    | subst kn =>
      unfold colOutput at hcq
      rw [hr] at hcq hproc
      injection hcq with hcq'
      rw [← hcq']
      exact processCol_subst_stable hbm htbl (hcols kv0 hkv0) (hq1 ▸ hproc)
    | remove =>
      unfold colOutput at hcq
      rw [hr] at hcq
      exact absurd hcq (by simp)
  · rw [if_neg hany] at hkv
    rcases exMapM_forward hmap kv hkv with ⟨q, hq, hstep⟩
    obtain ⟨hq1, hproc⟩ := colStep_ok hstep
    have hkeep : q.2 = ColRes.keep := by
      by_contra hne
      exact hany (List.any_eq_true.2 ⟨q, hq, by simp [hne]⟩)
    rw [hkeep] at hproc
    exact hproc

/-- A tiny concrete database used by the witnesses: element `B` with
master species `B(OH)3`. -/
def demoMaps : DBMaps :=
  ⟨[("B", "B(OH)3")], [("B", "B(OH)3")], [("B(OH)3", "B")], [("B(OH)3", "B")]⟩

theorem demoTbl_wf : WellFormedTbl [("B", ["B(OH)3"])] := by
  unfold WellFormedTbl
  decide

theorem demoMaps_build : buildMaps [("B", [("B(OH)3" : String)])] = .ok demoMaps := rfl

/-- Witness for `check_inputs_idempotent` on a one-element database
(element `B`, master species `B(OH)3`): the first pass renames the
`B(OH)3` column to `B`; the second pass leaves everything untouched. -/
theorem check_inputs_idempotent_witness :
    buildMaps [("B", [("B(OH)3" : String)])] = .ok demoMaps
    ∧ check_inputs demoMaps true "_std" [("B(OH)3", (0 : Nat))]
      = .ok ⟨[("B", 0)], [("B(OH)3", "B")], []⟩
    ∧ check_inputs demoMaps true "_std" [("B", (0 : Nat))] = .ok ⟨[("B", 0)], [], []⟩ :=
  ⟨demoMaps_build, rfl,
   @check_inputs_idempotent Nat [("B", ["B(OH)3"])] demoMaps
     [("B(OH)3", (0 : Nat))] ⟨[("B", 0)], [("B(OH)3", "B")], []⟩
     demoMaps_build demoTbl_wf
     (by
       intro kv hkv
       rcases List.mem_singleton.1 hkv with rfl
       exact ⟨"B(OH)3", Or.inl rfl, by decide, by decide⟩)
     rfl⟩

/-! ### Claim C10: a `density` column is removed, not retained -/

/-- C10: because the exempt-inputs list contains the single concatenated
string `-waterdensity` (missing comma) instead of `-water` and `density`,
a `density` column that is not an element or master-species name of the
database is not retained: `check_inputs` (default settings) removes it from
the table and records a removal diagnostic. -/
theorem check_inputs_density_removed {α : Type} {tbl : List (String × List String)}
    {mp : DBMaps} {inputs : List (String × α)} {res : CheckResult α} {v : α}
    (hbm : buildMaps tbl = .ok mp) (htbl : WellFormedTbl tbl)
    (hcols : WellFormedCols inputs)
    (hden : ("density", v) ∈ inputs)
    (h1 : plookup mp.e2m "density" = none)
    (h2 : plookup mp.m2e "density" = none)
    (h3 : plookup mp.mnc2e "density" = none)
    (hrun : check_inputs mp true "_std" inputs = .ok res) :
    "density" ∉ exempt_inputs ∧ "-waterdensity" ∈ exempt_inputs
      ∧ (∀ p ∈ res.table, p.1 ≠ "density") ∧ "density" ∈ res.rems := by
  have hprocd : processCol mp true "_std" "density" = .ok .remove := by
    have hstrip : stripStd "_std" "density" = "density" := stripStd_clean (by decide)
    simp only [processCol, hstrip, h1, h2, h3]
    rfl
  obtain ⟨rs, hmap, hres⟩ := check_inputs_spec hrun
  rcases exMapM_forward hmap ("density", v) hden with ⟨q, hq, hstep⟩
  obtain ⟨hq1, hproc⟩ := colStep_ok hstep
  have hq2 : q.2 = ColRes.remove := by
    have h' : (Except.ok ColRes.remove : Except PyErr ColRes) = Except.ok q.2 :=
      hprocd.symm.trans hproc
    injection h' with h''
    exact h''.symm
  have hany : rs.any (fun p => !(p.2 == ColRes.keep)) = true :=
    List.any_eq_true.2 ⟨q, hq, by simp [hq2]⟩
  refine ⟨by decide, by decide, ?_, ?_⟩
  · intro p hp
    have htab : res.table = rs.filterMap colOutput := by
      rw [hres]
      simp only [hany, if_true]
    rw [htab] at hp
    rcases List.mem_filterMap.1 hp with ⟨q', hq', hcq'⟩
    rcases exMapM_mem hmap q' hq' with ⟨kv0, hkv0, hstep'⟩
    obtain ⟨hq1', hproc'⟩ := colStep_ok hstep'
    cases hr : q'.2 with
    | keep =>
      unfold colOutput at hcq'
      rw [hr] at hcq' hproc'
      injection hcq' with hcq''
      rw [← hcq'', hq1']
      intro hd
      rw [hd] at hproc'
      rw [hprocd] at hproc'
      injection hproc' with h'
      exact absurd h' (by simp)
    | subst kn =>
      unfold colOutput at hcq'
      rw [hr] at hcq' hproc'
      injection hcq' with hcq''
      rw [← hcq'']
      intro hd
      have hst := processCol_subst_stable hbm htbl (hcols kv0 hkv0) hproc'
      rw [show ((kn, q'.1.2) : String × α).1 = kn from rfl] at hd
      rw [hd, hprocd] at hst
      injection hst with h'
      exact absurd h' (by simp)
    | remove =>
      unfold colOutput at hcq'
      rw [hr] at hcq'
      exact absurd hcq' (by simp)
  · have hrems : res.rems
        = rs.filterMap (fun p => match p.2 with | ColRes.remove => some p.1.1 | _ => none) := by
      rw [hres]
    rw [hrems]
    refine List.mem_filterMap.2 ⟨q, hq, ?_⟩
    simp only [hq2, hq1]

theorem demoCols_wf : WellFormedCols ([("density", (0 : Nat)), ("B", 1)]) := by
  intro kv hkv
  rcases List.mem_cons.1 hkv with rfl | hkv'
  · exact ⟨"density", Or.inl rfl, by decide, by decide⟩
  · rcases List.mem_singleton.1 hkv' with rfl
    exact ⟨"B", Or.inl rfl, by decide, by decide⟩

/-- Witness for `check_inputs_density_removed`: a table with a `density`
column and a `B` column against the one-element database; `density` is
removed and reported. -/
theorem check_inputs_density_removed_witness :
    check_inputs demoMaps true "_std" [("density", (0 : Nat)), ("B", 1)]
      = .ok ⟨[("B", 1)], [], ["density"]⟩
    ∧ "density" ∉ exempt_inputs ∧ "-waterdensity" ∈ exempt_inputs
    ∧ "density" ∈ (⟨[("B", 1)], [], ["density"]⟩ : CheckResult Nat).rems :=
  ⟨rfl,
   (@check_inputs_density_removed Nat [("B", ["B(OH)3"])] demoMaps
     [("density", (0 : Nat)), ("B", 1)]
     ⟨[("B", 1)], [], ["density"]⟩ 0 demoMaps_build demoTbl_wf
     demoCols_wf (List.mem_cons_self _ _) rfl rfl rfl rfl).1,
   (@check_inputs_density_removed Nat [("B", ["B(OH)3"])] demoMaps
     [("density", (0 : Nat)), ("B", 1)]
     ⟨[("B", 1)], [], ["density"]⟩ 0 demoMaps_build demoTbl_wf
     demoCols_wf (List.mem_cons_self _ _) rfl rfl rfl rfl).2.1,
   (@check_inputs_density_removed Nat [("B", ["B(OH)3"])] demoMaps
     [("density", (0 : Nat)), ("B", 1)]
     ⟨[("B", 1)], [], ["density"]⟩ 0 demoMaps_build demoTbl_wf
     demoCols_wf (List.mem_cons_self _ _) rfl rfl rfl rfl).2.2.2⟩

/-! ### Claim C7: `get_target_elements` never returns `H` or `O` -/

/-- C7: whenever `get_target_elements` with `drop_OH=True` succeeds on a
composition table accepted by `check_inputs`, its result contains neither
`H` nor `O` (even if they arise from the master-species translations of
the input keys), and every returned symbol is a member of the element
registry `valid_elements`. -/
theorem get_target_elements_drops_H_O {α : Type} (mp : DBMaps) (uid : String)
    (inputs : List (String × α)) (out : List String)
    (h : get_target_elements mp uid inputs true = .ok out) :
    "H" ∉ out ∧ "O" ∉ out ∧ ∀ x ∈ out, x ∈ valid_elements := by
  unfold get_target_elements at h
  cases hchk : check_inputs mp true uid inputs with
  | error e =>
    simp only [hchk] at h
    exact absurd h (by simp)
  | ok chk =>
    simp only [hchk] at h
    cases hfold : exFoldlM (targetStep mp uid) [] chk.table with
    | error e =>
      simp only [hfold] at h
      exact absurd h (by simp)
    | ok targets =>
      simp only [hfold] at h
      injection h with h'
      refine ⟨?_, ?_, ?_⟩
      · intro hmem
        rw [← h'] at hmem
        have h2 := (List.mem_filter.1 hmem).1
        simp only [if_true] at h2
        have h3 := (List.mem_filter.1 h2).2
        simp at h3
      · intro hmem
        rw [← h'] at hmem
        have h2 := (List.mem_filter.1 hmem).1
        simp only [if_true] at h2
        have h3 := (List.mem_filter.1 h2).2
        simp at h3
      · intro x hx
        rw [← h'] at hx
        exact of_decide_eq_true (List.mem_filter.1 hx).2

/-- Witness for `get_target_elements_drops_H_O`: a `B(OH)3` column on the
one-element database yields targets `{B}` — the `O` and `H` of the master
species are dropped. -/
theorem get_target_elements_drops_H_O_witness :
    get_target_elements demoMaps "_std" [("B(OH)3", (0 : Nat))] true = .ok ["B"]
    ∧ "H" ∉ (["B"] : List String) ∧ "O" ∉ (["B"] : List String) :=
  ⟨rfl,
   (get_target_elements_drops_H_O demoMaps "_std" [("B(OH)3", (0 : Nat))] ["B"] rfl).1,
   (get_target_elements_drops_H_O demoMaps "_std" [("B(OH)3", (0 : Nat))] ["B"] rfl).2.1⟩

/-! ## `make_solution` (blazy/phreeqc/io.py) and the `.8e` float format

Numeric row values are modelled as exact rationals; the decimal core of
CPython's `f"{float(v):.8e}"` (normalize to `d.dddddddd × 10^e`, rounding
half-even at 8 fractional digits) is implemented on them.  The binary
double-rounding step of a real CPython float is not modelled — it never
changes the digit *layout* of the output, which is what the claim is
about. -/

/-- Decimal digit character. -/
def digitChar (n : Nat) : Char :=
  if n = 0 then '0' else if n = 1 then '1' else if n = 2 then '2'
  else if n = 3 then '3' else if n = 4 then '4' else if n = 5 then '5'
  else if n = 6 then '6' else if n = 7 then '7' else if n = 8 then '8'
  else if n = 9 then '9' else '?'

/-- Decimal digit characters of a natural number (fueled). -/
def natDigitsGo : Nat → Nat → List Char
  | 0, _ => []
  | fuel + 1, n =>
    if n < 10 then [digitChar n]
    else natDigitsGo fuel (n / 10) ++ [digitChar (n % 10)]

/-- Decimal rendering of a natural number. -/
def natRepr (n : Nat) : String := ⟨natDigitsGo (n + 1) n⟩

/-- Decimal rendering of an integer (`{int(n):d}`). -/
def intRepr (n : Int) : String :=
  if n < 0 then "-" ++ natRepr n.natAbs else natRepr n.natAbs

/-- Round `N / D` (`D > 0`) to the nearest integer, ties to even. -/
def roundHalfEven (N D : Nat) : Nat :=
  if D < 2 * (N % D) then N / D + 1
  else if 2 * (N % D) < D then N / D
  else if N / D % 2 = 0 then N / D else N / D + 1

/-- Floor of log₁₀ on positive naturals (fueled; `fuel ≥ n` suffices). -/
def log10F : Nat → Nat → Nat
  | 0, _ => 0
  | fuel + 1, n => if n < 10 then 0 else log10F fuel (n / 10) + 1

/-- `⌊log₁₀ n⌋`. -/
def natLog10 (n : Nat) : Nat := log10F n n

/-- The exponent `e` with `10^e ≤ num/den < 10^(e+1)` for `num, den ≥ 1`. -/
def qExp10 (num den : Nat) : Int :=
  if den ≤ num then (natLog10 (num / den) : Int)
  else -(1 + (natLog10 ((den - 1) / num) : Int))

/-- The fraction `(num/den) × 10^(8-e)` as a numerator/denominator pair. -/
def mantFrac (num den : Nat) (e : Int) : Nat × Nat :=
  if 8 ≤ e then (num, den * 10 ^ (e - 8).toNat)
  else (num * 10 ^ (8 - e).toNat, den)

/-- The 8 fractional mantissa digits, zero-padded. -/
def pad8 (m : Nat) : List Char :=
  (List.range 8).map (fun i => digitChar (m / 10 ^ (7 - i) % 10))

/-- The exponent suffix `e±XX` (two digits minimum), as CPython prints it. -/
def expSuffix (ex : Int) : String :=
  (if ex < 0 then "e-" else "e+") ++ (if ex.natAbs < 10 then "0" else "")
    ++ natRepr ex.natAbs

/-- The rounded 9-digit mantissa of a non-zero rational, before the carry
fix-up. -/
def mant0 (q : ℚ) : Nat :=
  roundHalfEven (mantFrac q.num.natAbs q.den (qExp10 q.num.natAbs q.den)).1
    (mantFrac q.num.natAbs q.den (qExp10 q.num.natAbs q.den)).2

/-- The mantissa after the `9.999999995 → 10.0` rounding carry. -/
def mant8 (q : ℚ) : Nat := if 10 ^ 9 ≤ mant0 q then 10 ^ 8 else mant0 q

/-- The printed exponent (after the carry). -/
def exp8 (q : ℚ) : Int :=
  if 10 ^ 9 ≤ mant0 q then qExp10 q.num.natAbs q.den + 1 else qExp10 q.num.natAbs q.den

/-- Decimal core of `f"{x:.8e}"` on a rational value. -/
def sciFormat8 (q : ℚ) : String :=
  if q = 0 then "0.00000000e+00"
  else
    (if q < 0 then "-" else "")
      ++ ⟨digitChar (mant8 q / 10 ^ 8) :: '.' :: pad8 (mant8 q % 10 ^ 8)⟩
      ++ expSuffix (exp8 q)

/-- Row values of a composition row: Python strings or numbers. -/
inductive PyVal
  | vstr (s : String)
  | vnum (q : ℚ)

/-- `f'{k:20s}'`: right-pad with spaces to width 20. -/
def padKey (k : String) : String :=
  k ++ ⟨List.replicate (20 - k.length) ' '⟩

/-- One entry line of `make_solution`: four leading spaces, the padded key,
then the value — verbatim for strings, `.8e`-formatted for numbers. -/
def solutionLine (kv : String × PyVal) : String :=
  match kv.2 with
  | .vstr s => "    " ++ padKey kv.1 ++ s
  | .vnum q => "    " ++ padKey kv.1 ++ sciFormat8 q

/-- `'\n'.join(...)`. -/
def joinLines : List String → String
  | [] => ""
  | [s] => s
  | s :: t :: rest => s ++ "\n" ++ joinLines (t :: rest)

/-- `make_solution(inputs, n)` of blazy/phreeqc/io.py. -/
def make_solution (inputs : List (String × PyVal)) (n : Int) : String :=
  joinLines (("SOLUTION " ++ intRepr n) :: inputs.map solutionLine) ++ "\n"

/-- Count of mantissa digits (digits before the `e`) of a formatted
number — its significant digits. -/
def mantissaSigDigits (s : String) : Nat :=
  ((s.data.takeWhile (fun c => !(c == 'e'))).filter isDigitA).length

/-! ### The mantissa of `sciFormat8` always has 1 + 8 digits -/

theorem log10F_spec : ∀ (fuel n : Nat), 1 ≤ n → n ≤ fuel →
    10 ^ log10F fuel n ≤ n ∧ n < 10 ^ (log10F fuel n + 1)
  | 0, _, h1, h2 => by omega
  | fuel + 1, n, h1, h2 => by
    rw [log10F]
    by_cases hn : n < 10
    · rw [if_pos hn]
      simpa using And.intro h1 hn
    · rw [if_neg hn]
      push_neg at hn
      have h10 : 1 ≤ n / 10 := (Nat.le_div_iff_mul_le (by norm_num)).2 (by omega)
      have hfuel : n / 10 ≤ fuel := by
        have := Nat.div_lt_self (by omega : 0 < n) (by norm_num : 1 < 10)
        omega
      obtain ⟨hlo, hhi⟩ := log10F_spec fuel (n / 10) h10 hfuel
      constructor
      · calc 10 ^ (log10F fuel (n / 10) + 1) = 10 ^ log10F fuel (n / 10) * 10 := by
              rw [pow_succ]
          _ ≤ n / 10 * 10 := Nat.mul_le_mul_right 10 hlo
          _ ≤ n := Nat.div_mul_le_self n 10
      · have hstep : n < (n / 10 + 1) * 10 := by omega
        calc n < (n / 10 + 1) * 10 := hstep
          _ ≤ 10 ^ (log10F fuel (n / 10) + 1) * 10 := Nat.mul_le_mul_right 10 (by omega)
          _ = 10 ^ (log10F fuel (n / 10) + 1 + 1) := by ring

theorem natLog10_spec {n : Nat} (h : 1 ≤ n) :
    10 ^ natLog10 n ≤ n ∧ n < 10 ^ (natLog10 n + 1) :=
  log10F_spec n n h le_rfl

theorem mantFrac_bounds (num den : Nat) (hnum : 1 ≤ num) (hden : 1 ≤ den) :
    10 ^ 8 * (mantFrac num den (qExp10 num den)).2 ≤ (mantFrac num den (qExp10 num den)).1
    ∧ (mantFrac num den (qExp10 num den)).1
      < 10 ^ 9 * (mantFrac num den (qExp10 num den)).2 := by
  by_cases hcase : den ≤ num
  · have h1 : 1 ≤ num / den := (Nat.le_div_iff_mul_le (by omega)).2 (by omega)
    obtain ⟨hlo, hhi⟩ := natLog10_spec h1
    have hlo' : 10 ^ natLog10 (num / den) * den ≤ num :=
      (Nat.le_div_iff_mul_le (by omega)).1 hlo
    have hhi' : num < 10 ^ (natLog10 (num / den) + 1) * den :=
      (Nat.div_lt_iff_lt_mul (by omega)).1 hhi
    rw [qExp10, if_pos hcase]
    unfold mantFrac
    by_cases h8 : (8 : Int) ≤ (natLog10 (num / den) : Int)
    · rw [if_pos h8]
      have hg8 : 8 ≤ natLog10 (num / den) := by exact_mod_cast h8
      have htn : ((natLog10 (num / den) : Int) - 8).toNat = natLog10 (num / den) - 8 := by
        omega
      rw [htn]
      constructor
      · calc 10 ^ 8 * (den * 10 ^ (natLog10 (num / den) - 8))
            = 10 ^ (8 + (natLog10 (num / den) - 8)) * den := by
              rw [pow_add]; ring
          _ = 10 ^ natLog10 (num / den) * den := by
              congr 2; omega
          _ ≤ num := hlo'
      · calc num < 10 ^ (natLog10 (num / den) + 1) * den := hhi'
          _ = 10 ^ (9 + (natLog10 (num / den) - 8)) * den := by congr 2; omega
          _ = 10 ^ 9 * (den * 10 ^ (natLog10 (num / den) - 8)) := by
              rw [pow_add]; ring
    · rw [if_neg h8]
      have hg8 : natLog10 (num / den) < 8 := by omega
      have htn : ((8 : Int) - (natLog10 (num / den) : Int)).toNat
          = 8 - natLog10 (num / den) := by omega
      rw [htn]
      constructor
      · calc 10 ^ 8 * den
            = 10 ^ natLog10 (num / den) * den * 10 ^ (8 - natLog10 (num / den)) := by
              have hp : (10 : ℕ) ^ natLog10 (num / den) * 10 ^ (8 - natLog10 (num / den))
                  = 10 ^ 8 := by
                rw [← pow_add]; congr 1; omega
              rw [← hp]; ring
          _ ≤ num * 10 ^ (8 - natLog10 (num / den)) :=
              Nat.mul_le_mul_right _ hlo'
      · calc num * 10 ^ (8 - natLog10 (num / den))
            < (10 ^ (natLog10 (num / den) + 1) * den) * 10 ^ (8 - natLog10 (num / den)) :=
              (mul_lt_mul_right (by positivity)).2 hhi'
          _ = 10 ^ 9 * den := by
              rw [show (9 : Nat)
                = (natLog10 (num / den) + 1) + (8 - natLog10 (num / den)) from by omega,
                pow_add]
              ring
  · push_neg at hcase
    have h1 : 1 ≤ (den - 1) / num := (Nat.le_div_iff_mul_le (by omega)).2 (by omega)
    obtain ⟨hlo, hhi⟩ := natLog10_spec h1
    have hlo' : 10 ^ natLog10 ((den - 1) / num) * num ≤ den - 1 :=
      (Nat.le_div_iff_mul_le (by omega)).1 hlo
    have hhi' : den - 1 < 10 ^ (natLog10 ((den - 1) / num) + 1) * num :=
      (Nat.div_lt_iff_lt_mul (by omega)).1 hhi
    have hup : den ≤ 10 ^ (natLog10 ((den - 1) / num) + 1) * num := by omega
    have hdown : 10 ^ natLog10 ((den - 1) / num) * num < den := by omega
    rw [qExp10, if_neg (by omega)]
    unfold mantFrac
    rw [if_neg (by omega : ¬ (8 : Int) ≤ -(1 + (natLog10 ((den - 1) / num) : Int)))]
    have htn : ((8 : Int) - -(1 + (natLog10 ((den - 1) / num) : Int))).toNat
        = 9 + natLog10 ((den - 1) / num) := by omega
    rw [htn]
    constructor
    · calc 10 ^ 8 * den
          ≤ 10 ^ 8 * (10 ^ (natLog10 ((den - 1) / num) + 1) * num) :=
            Nat.mul_le_mul_left _ hup
        _ = num * 10 ^ (9 + natLog10 ((den - 1) / num)) := by
            rw [show 9 + natLog10 ((den - 1) / num)
              = 8 + (natLog10 ((den - 1) / num) + 1) from by omega, pow_add]
            ring
    · calc num * 10 ^ (9 + natLog10 ((den - 1) / num))
          = 10 ^ 9 * (10 ^ natLog10 ((den - 1) / num) * num) := by
            rw [pow_add]; ring
        _ < 10 ^ 9 * den := by
            exact mul_lt_mul_of_pos_left hdown (by positivity)

theorem roundHalfEven_bounds {N D : Nat} (hD : 0 < D) (hlo : 10 ^ 8 * D ≤ N)
    (hhi : N < 10 ^ 9 * D) :
    10 ^ 8 ≤ roundHalfEven N D ∧ roundHalfEven N D ≤ 10 ^ 9 := by
  have hq_lo : 10 ^ 8 ≤ N / D := (Nat.le_div_iff_mul_le hD).2 hlo
  have hq_hi : N / D < 10 ^ 9 := (Nat.div_lt_iff_lt_mul hD).2 hhi
  unfold roundHalfEven
  split
  · omega
  · split
    · omega
    · split <;> omega

theorem mant8_bounds (q : ℚ) (hq : q ≠ 0) : 10 ^ 8 ≤ mant8 q ∧ mant8 q < 10 ^ 9 := by
  have hnum : 1 ≤ q.num.natAbs := Int.natAbs_pos.2 (Rat.num_ne_zero.2 hq)
  have hden : 1 ≤ q.den := q.pos
  obtain ⟨hlo, hhi⟩ := mantFrac_bounds q.num.natAbs q.den hnum hden
  have hDpos : 0 < (mantFrac q.num.natAbs q.den (qExp10 q.num.natAbs q.den)).2 := by
    unfold mantFrac
    split
    · exact Nat.mul_pos (by omega) (by positivity)
    · omega
  obtain ⟨h1, h2⟩ := roundHalfEven_bounds hDpos hlo hhi
  have hm1 : 10 ^ 8 ≤ mant0 q := h1
  have hm2 : mant0 q ≤ 10 ^ 9 := h2
  unfold mant8
  split
  · exact ⟨le_refl _, by norm_num⟩
  · next h => exact ⟨hm1, by omega⟩

theorem digitChar_digit : ∀ n, n < 10 → isDigitA (digitChar n) = true := by decide

theorem pad8_length (m : Nat) : (pad8 m).length = 8 := by simp [pad8]

theorem pad8_digits (m : Nat) : ∀ c ∈ pad8 m, isDigitA c = true := by
  intro c hc
  rcases List.mem_map.1 hc with ⟨i, _, rfl⟩
  exact digitChar_digit _ (Nat.mod_lt _ (by norm_num))

theorem takeWhile_append_all {p : Char → Bool} :
    ∀ {l1 l2 : List Char}, (∀ c ∈ l1, p c = true) →
      (l1 ++ l2).takeWhile p = l1 ++ l2.takeWhile p
  | [], _, _ => rfl
  | c :: t, l2, h => by
    rw [List.cons_append]
    simp [List.takeWhile_cons, h c (List.mem_cons_self c t),
      takeWhile_append_all (fun x hx => h x (List.mem_cons_of_mem c hx))]

theorem expSuffix_starts_e (ex : Int) : ∃ rest, (expSuffix ex).data = 'e' :: rest := by
  unfold expSuffix
  split <;> exact ⟨_, by rw [String.data_append, String.data_append]; rfl⟩

theorem isDigitA_ne_e {c : Char} (h : isDigitA c = true) : ¬ (c = 'e') := by
  intro he
  subst he
  exact absurd h (by decide)

/-- The digit-count of the mantissa produced for a non-zero value. -/
theorem sciFormat8_mantissa (q : ℚ) (hq : q ≠ 0) :
    sciFormat8 q = (if q < 0 then "-" else "")
        ++ ⟨digitChar (mant8 q / 10 ^ 8) :: '.' :: pad8 (mant8 q % 10 ^ 8)⟩
        ++ expSuffix (exp8 q)
    ∧ isDigitA (digitChar (mant8 q / 10 ^ 8)) = true
    ∧ (pad8 (mant8 q % 10 ^ 8)).length = 8 := by
  have hm := mant8_bounds q hq
  have hd : mant8 q / 10 ^ 8 < 10 := by
    have h2 := hm.2
    rw [Nat.div_lt_iff_lt_mul (by norm_num)]
    norm_num at h2 ⊢
    omega
  exact ⟨by rw [sciFormat8, if_neg hq], digitChar_digit _ hd, pad8_length _⟩

theorem sciFormat8_sig_digits (q : ℚ) : mantissaSigDigits (sciFormat8 q) = 9 := by
  by_cases hq : q = 0
  · subst hq
    decide
  · obtain ⟨heq, hdig, _⟩ := sciFormat8_mantissa q hq
    rw [heq]
    unfold mantissaSigDigits
    rw [String.data_append, String.data_append]
    have hsgn : ∀ c ∈ (if q < 0 then "-" else "").data, (!(c == 'e')) = true := by
      split <;> decide
    have hmant : ∀ c ∈ (⟨digitChar (mant8 q / 10 ^ 8) :: '.'
        :: pad8 (mant8 q % 10 ^ 8)⟩ : String).data, (!(c == 'e')) = true := by
      intro c hc
      rcases List.mem_cons.1 hc with rfl | hc'
      · simp only [Bool.not_eq_true', beq_eq_false_iff_ne, ne_eq]
        exact isDigitA_ne_e hdig
      · rcases List.mem_cons.1 hc' with rfl | hc''
        · decide
        · simp only [Bool.not_eq_true', beq_eq_false_iff_ne, ne_eq]
          exact isDigitA_ne_e (pad8_digits _ c hc'')
    rw [List.append_assoc, takeWhile_append_all hsgn, takeWhile_append_all hmant]
    obtain ⟨rest, hrest⟩ := expSuffix_starts_e (exp8 q)
    rw [hrest]
    rw [show (('e' :: rest).takeWhile (fun c => !(c == 'e'))) = [] from by
      simp [List.takeWhile_cons]]
    rw [List.append_nil, List.filter_append]
    have h1 : ((if q < 0 then "-" else "") : String).data.filter isDigitA = [] := by
      split <;> decide
    have h2 : ((⟨digitChar (mant8 q / 10 ^ 8) :: '.'
        :: pad8 (mant8 q % 10 ^ 8)⟩ : String).data).filter isDigitA
        = digitChar (mant8 q / 10 ^ 8) :: pad8 (mant8 q % 10 ^ 8) := by
      show (digitChar (mant8 q / 10 ^ 8) :: '.' :: pad8 (mant8 q % 10 ^ 8)).filter isDigitA
        = _
      rw [List.filter_cons_of_pos hdig,
        List.filter_cons_of_neg (by decide : ¬ isDigitA '.' = true),
        List.filter_eq_self.2 (pad8_digits _)]
    rw [h1, h2]
    simp [pad8_length]

/-! ## Claim C8: numeric rendering in `make_solution` -/

/-- C8 counterexample: the claim asserts numeric values are rendered with
*exactly 8 significant digits*.  The `.8e` format gives 8 digits after the
decimal point, i.e. 9 significant digits: already at the value 1 the
rendered mantissa `1.00000000` has 9 digits, not 8. -/
theorem make_solution_eight_sig_digits_false :
    solutionLine ("Ca", .vnum 1) = "    Ca                  1.00000000e+00"
    ∧ mantissaSigDigits "1.00000000e+00" = 9
    ∧ ¬ (mantissaSigDigits "1.00000000e+00" = 8) :=
  ⟨by decide, by decide, by decide⟩

/-- C8 amended: every numeric entry of a solution block is rendered as
4 spaces, the key right-padded to 20 characters, then the value in `.8e`
scientific notation — one leading digit, a decimal point and exactly 8
fractional digits (hence 9 significant digits, not 8), plus an exponent
suffix; every string entry is rendered verbatim after the same padding. -/
theorem make_solution_renders :
    (∀ (k s : String), solutionLine (k, .vstr s) = "    " ++ padKey k ++ s)
    ∧ (∀ (k : String) (q : ℚ), solutionLine (k, .vnum q) = "    " ++ padKey k ++ sciFormat8 q)
    ∧ (∀ q : ℚ, mantissaSigDigits (sciFormat8 q) = 9)
    ∧ ∀ q : ℚ, q ≠ 0 →
        sciFormat8 q = (if q < 0 then "-" else "")
          ++ ⟨digitChar (mant8 q / 10 ^ 8) :: '.' :: pad8 (mant8 q % 10 ^ 8)⟩
          ++ expSuffix (exp8 q)
        ∧ (pad8 (mant8 q % 10 ^ 8)).length = 8 :=
  ⟨fun _ _ => rfl, fun _ _ => rfl, sciFormat8_sig_digits,
   fun q hq => ⟨(sciFormat8_mantissa q hq).1, (sciFormat8_mantissa q hq).2.2⟩⟩

/-- Witness for `make_solution_renders` at `q = 123456`. -/
theorem make_solution_renders_witness :
    ¬ ((123456 : ℚ) = 0)
    ∧ (pad8 (mant8 (123456 : ℚ) % 10 ^ 8)).length = 8
    ∧ sciFormat8 (123456 : ℚ) = "1.23456000e+05" :=
  ⟨by norm_num, (make_solution_renders.2.2.2 (123456 : ℚ) (by norm_num)).2, by decide⟩

end Blazy
